import Mathlib

/-!
# Verification of the smart-traffic document field-extraction pipeline

Shallow embedding of the field-extraction pipeline of the repository
(`src/services/textPreprocessingService.js`, `src/services/aiFieldExtractionService.js`,
`src/services/ocrService.js`) together with proofs and refutations of the frozen claims.

Modelling conventions:
* JavaScript strings are modelled as `List Char`; JavaScript numbers as `ℚ`
  (every numeric computation in the modelled code is +, *, /, min, comparisons
  on decimal constants, which ℚ models exactly).
* `String.prototype.normalize('NFC')` is modelled as the identity function:
  every character class the service manipulates (ASCII and the Hebrew block
  U+0590–U+05FF, which has no precomposed NFC compositions for its letters)
  is NFC-invariant, and all concrete inputs used below are NFC-fixed.
* A JavaScript object field that can hold `undefined`, `null` or a string is
  modelled by `JsVal`; a numeric map field that may be missing is `Option ℚ`.
* External collaborators (Google Vision, OpenAI chat completion) are modelled
  by `Except String _` parameters: `.error e` is a raised/rejected call,
  `.ok v` a successful response; wall-clock metadata (timestamps, durations,
  token accounting) is not modelled.
-/

namespace SmartTraffic

/- Restore the default reducibility of the rational-number operations so that
`decide` can evaluate the embedded confidence arithmetic on concrete inputs. -/
attribute [local semireducible] Rat.add Rat.mul Rat.sub Rat.inv

/-! ## Character classes used by the JavaScript regular expressions -/

/-- The character class of the JavaScript regex `\s` (also the set stripped by
`String.prototype.trim`): tab, LF, VT, FF, CR, space, NBSP and the Unicode
space separators. -/
def isWS (c : Char) : Bool :=
  c.val = 0x09 || c.val = 0x0a || c.val = 0x0b || c.val = 0x0c || c.val = 0x0d ||
  c.val = 0x20 || c.val = 0xa0 || c.val = 0x1680 ||
  (0x2000 ≤ c.val && c.val ≤ 0x200a) ||
  c.val = 0x2028 || c.val = 0x2029 || c.val = 0x202f || c.val = 0x205f ||
  c.val = 0x3000 || c.val = 0xfeff

/-- The class `[\x00-\x08\x0B\x0C\x0E-\x1F\x7F]` removed by `normalizeHebrewText`
(non-printable control characters except newline, tab and carriage return). -/
def isStrippedCtrl (c : Char) : Bool :=
  c.val ≤ 0x08 || c.val = 0x0b || c.val = 0x0c ||
  (0x0e ≤ c.val && c.val ≤ 0x1f) || c.val = 0x7f

/-- The character class of the JavaScript regex `\d`. -/
def isDigitChar (c : Char) : Bool :=
  0x30 ≤ c.val && c.val ≤ 0x39

/-- The backquote character (U+0060), written by code point. -/
def backquoteChar : Char := Char.ofNat 96

/-- The apostrophe character (U+0027), written by code point. -/
def apostChar : Char := Char.ofNat 39

/-! ## List-of-characters utilities shared by the embedded services -/

/-- Drop whitespace from the end of a list (the right half of
`String.prototype.trim`). -/
def dropWSEnd : List Char → List Char
  | [] => []
  | c :: r =>
    let r' := dropWSEnd r
    if r' = [] ∧ isWS c then [] else c :: r'

/-- `String.prototype.trim`: strip the JS whitespace class from both ends. -/
def trimJS (l : List Char) : List Char :=
  dropWSEnd (l.dropWhile isWS)

/-- Characterwise image of a whitespace character under `.replace(/\s+/g, ' ')`. -/
def wsToSpace (c : Char) : Char :=
  if isWS c then ' ' else c

/-- Collapse adjacent space pairs, left to right. -/
def squeezeSpaces : List Char → List Char
  | [] => []
  | [c] => [c]
  | a :: b :: t =>
    if a = ' ' ∧ b = ' ' then squeezeSpaces (b :: t)
    else a :: squeezeSpaces (b :: t)

/-- The substitution `.replace(/\s+/g, ' ')`: every maximal run of whitespace
characters is replaced by a single space. Since each whitespace character maps
to a space and runs map to runs, this equals mapping whitespace to spaces and
then collapsing adjacent spaces. -/
def collapseWS (l : List Char) : List Char :=
  squeezeSpaces (l.map wsToSpace)

/-- `String.prototype.split('\n')`. Splitting the empty string yields `[[]]`,
matching JavaScript's `''.split('\n') = ['']`. -/
def splitOnNl : List Char → List (List Char)
  | [] => [[]]
  | c :: rest =>
    if c = '\n' then [] :: splitOnNl rest
    else
      match splitOnNl rest with
      | [] => [[c]]
      | h :: t => (c :: h) :: t

/-! ## TextNormalizer (`textPreprocessingService.js`, `normalizeHebrewText`) -/

/-- The substitution `.replace(/[|]/g, 'ו')` applied characterwise: vertical
bars often misread as vav. -/
def barToVav (c : Char) : Char :=
  if c = '|' then 'ו' else c

/-- `normalizeHebrewText` (`textPreprocessingService.js:95-115`): NFC
normalization (modelled as the identity, see the file header), control-character
stripping, whitespace collapsing, per-line trimming with empty-line removal,
OCR-artifact substitutions, and a final trim. -/
def normalizeHebrewText (text : List Char) : List Char :=
  if text = [] then []
  else
    let t2 := text.filter (fun c => !isStrippedCtrl c)
    let t3 := collapseWS t2
    let t4 := List.intercalate ['\n']
      (((splitOnNl t3).map trimJS).filter (fun l => l.length > 0))
    let t5 := t4.map barToVav
    let t6 := t5.filter (fun c => !(c = backquoteChar || c = apostChar))
    let t7 := t6.filter (fun c => !(c = '_'))
    trimJS t7

/-- `correctHebrewOCRErrors` (`textPreprocessingService.js:170-178`): the
character-confusion correction pass is disabled in the source ("the global
character replacement is corrupting valid Hebrew text"); the function guards
on falsy input and otherwise returns its argument unchanged. -/
def correctHebrewOCRErrors (text : List Char) : List Char :=
  if text = [] then [] else text

/-! ## FuzzyFieldDetector (`textPreprocessingService.js`, `editDistance`,
`isFuzzyMatch`, `TRAFFIC_KEYWORDS`, `detectFieldTypes`) -/

/-- Fuelled Levenshtein recurrence; the fuel only drives structural recursion
and `editDistance` below always supplies enough of it. -/
def editDistanceAux : ℕ → List Char → List Char → ℕ
  | 0, _, _ => 0
  | _ + 1, [], s2 => s2.length
  | _ + 1, s1, [] => s1.length
  | fuel + 1, a :: s1, b :: s2 =>
    min (editDistanceAux fuel s1 (b :: s2) + 1)
      (min (editDistanceAux fuel (a :: s1) s2 + 1)
        (editDistanceAux fuel s1 s2 + (if a = b then 0 else 1)))

/-- Levenshtein edit distance (`textPreprocessingService.js:120-146`). The
source fills the standard dynamic-programming matrix; this is the recurrence
that matrix implements (each recursive call drops at least one character, so
`length + length` fuel always suffices). -/
def editDistance (s1 s2 : List Char) : ℕ :=
  editDistanceAux (s1.length + s2.length) s1 s2

/-- The class kept by `word.replace(/[^֐-׿ -\u007F]/g, '')`:
Hebrew block plus printable ASCII (including 0x7F). -/
def scriptRelevant (c : Char) : Bool :=
  (0x590 ≤ c.val && c.val ≤ 0x5ff) || (0x20 ≤ c.val && c.val ≤ 0x7f)

/-- Result record returned by a successful `isFuzzyMatch`. -/
structure FuzzyRes where
  keyword : List Char
  similarity : ℚ
  distance : ℕ
deriving DecidableEq

/-- Keyword scan of `isFuzzyMatch`: the first keyword (in catalog order) whose
edit distance to the cleaned word is at most 2 or whose similarity is at least
0.7 wins. -/
def isFuzzyMatchGo (cleanWord : List Char) : List (List Char) → Option FuzzyRes
  | [] => none
  | keyword :: rest =>
    let distance := editDistance cleanWord keyword
    let similarity : ℚ := 1 - (distance : ℚ) / (max cleanWord.length keyword.length : ℕ)
    if distance ≤ 2 ∨ (7 : ℚ)/10 ≤ similarity then some ⟨keyword, similarity, distance⟩
    else isFuzzyMatchGo cleanWord rest

/-- `isFuzzyMatch` (`textPreprocessingService.js:151-165`) with the default
threshold 2: restrict the line to script-relevant characters, trim, and scan
the keyword list. (In the source the degenerate division 0/0 — both the
cleaned word and a keyword empty — yields NaN; every catalog keyword is
nonempty so the case is unreachable, and `ℚ` division by zero yields 0 here.) -/
def isFuzzyMatch (word : List Char) (keywords : List (List Char)) : Option FuzzyRes :=
  isFuzzyMatchGo (trimJS (word.filter scriptRelevant)) keywords

/-- The nine keys of `TRAFFIC_KEYWORDS` (`textPreprocessingService.js:30-90`).
Note `time`, whose name differs from the catalog field `violationTime` of the
AI extraction service. -/
inductive PrepKey where
  | reportNumber | violationDate | violationType | fineAmount
  | location | time | points | driverName | licenseNumber
deriving DecidableEq

/-- `TRAFFIC_KEYWORDS` (`textPreprocessingService.js:30-90`), keyword lists in
source order. -/
def TRAFFIC_KEYWORDS : PrepKey → List (List Char)
  | .reportNumber =>
    ["מספר דוח".toList, "פרטי דוח מספר".toList, "דוח מספר".toList,
     "מס דוח".toList, "מס".toList ++ [apostChar], "מספר".toList]
  | .violationDate =>
    ["תאריך עבירה".toList, "תאריך".toList, "יום".toList, "עבירה ביום".toList]
  | .violationType =>
    ["סעיף העבירה".toList, "מס עבירה".toList, "סעיף".toList, "עבירה".toList, "חוק".toList]
  | .fineAmount =>
    ["סכום לתשלום".toList, "קנס".toList, "סכום".toList, "לתשלום".toList,
     "שקלים".toList, "ש\"ח".toList]
  | .location =>
    ["מיקום".toList, "רחוב".toList, "כביש".toList, "דרך".toList, "שדרות".toList, "מקום".toList]
  | .time => ["שעה".toList, "זמן".toList, "בשעה".toList]
  | .points => ["נקודות".toList, "נק".toList, "נקודה".toList]
  | .driverName => ["אל הנהג".toList, "נהג".toList, "שם".toList, "מר".toList, "גב".toList]
  | .licenseNumber => ["מספר רישוי".toList, "רישיון".toList, "רישוי".toList]

/-- One entry of the `detectedFields` object built by `detectFieldTypes`. -/
structure Detection where
  lineIndex : ℕ
  line : List Char
  nextLine : List Char
  matchedKeyword : List Char
  similarity : ℚ
  confidence : ℚ
deriving DecidableEq

/-- One line of the `detectFieldTypes` scan for a fixed field key: overwrite
the accumulated detection whenever the line fuzzy-matches one of the field's
keywords, with detection confidence `min(0.95, similarity + 0.1)`. -/
def detectStep (lines : List (List Char)) (k : PrepKey) (acc : Option Detection) (i : ℕ) :
    Option Detection :=
  let line := lines.getD i []
  let nextLine := lines.getD (i + 1) []
  match isFuzzyMatch line (TRAFFIC_KEYWORDS k) with
  | some fr =>
    some ⟨i, line, nextLine, fr.keyword, fr.similarity, min (19/20 : ℚ) (fr.similarity + 1/10)⟩
  | none => acc

/-- `detectFieldTypes` (`textPreprocessingService.js:183-208`), read pointwise
per field key: the source iterates lines outermost and overwrites
`detectedFields[fieldType]` on every match, so for each key the last matching
line wins. -/
def detectFieldTypes (lines : List (List Char)) (k : PrepKey) : Option Detection :=
  (List.range lines.length).foldl (detectStep lines k) none

/-! ## PatternExtractor (`textPreprocessingService.js`, `extractValuePatterns`)

Each JavaScript regex is embedded as a matcher `List Char → Option (List Char)`
returning the (nonempty) match anchored at the head of its argument, and
`allMatches` reproduces the global-flag scan: try every start position from the
left, and resume after the end of each match. -/

/-- Maximal run of digits at the head of the list (greedy `\d*`). -/
def digitRun (s : List Char) : List Char := s.takeWhile isDigitChar

/-- `\d{n,}` anchored at the head: the maximal digit run, of length ≥ n. -/
def matchDigitsMin (n : ℕ) (s : List Char) : Option (List Char) :=
  let r := digitRun s
  if n ≤ r.length then some r else none

/-- `\d{n}` anchored at the head: exactly the next n characters, all digits
(a longer digit run may follow). -/
def matchNDigits (n : ℕ) (s : List Char) : Option (List Char) :=
  let t := s.take n
  if t.length = n ∧ t.all isDigitChar then some t else none

/-- `\d{3,}-\d{3,}` anchored at the head. -/
def matchHyphen33 (s : List Char) : Option (List Char) :=
  let r1 := digitRun s
  if 3 ≤ r1.length then
    match s.drop r1.length with
    | '-' :: rest =>
      let r2 := digitRun rest
      if 3 ≤ r2.length then some (r1 ++ '-' :: r2) else none
    | _ => none
  else none

/-- `\d{1,2}` immediately followed by one of `seps` and exactly `n` leading
digits; helper for the date and time matchers. -/
def matchD12SepAt (seps : List Char) (n : ℕ) (s : List Char) : Option (List Char × List Char) :=
  match matchNDigits n s with
  | some d =>
    match s.drop n with
    | sep :: r => if sep ∈ seps then some (d ++ [sep], r) else none
    | [] => none
  | none => none

/-- `\d{1,2}` followed by a separator, greedy (two digits preferred, with the
regex backtracking to one). -/
def matchD12Sep (seps : List Char) (s : List Char) : Option (List Char × List Char) :=
  (matchD12SepAt seps 2 s).orElse (fun _ => matchD12SepAt seps 1 s)

/-- `\d{1,2}` at the end of a pattern: greedy two digits, else one. -/
def matchD12End (s : List Char) : Option (List Char) :=
  (matchNDigits 2 s).orElse (fun _ => matchNDigits 1 s)

/-- `\d{1,2}<sep>\d{1,2}<sep>\d{4}` anchored at the head (the `DD/MM/YYYY` and
`DD.MM.YYYY` date shapes). -/
def matchDateDMY (sep : Char) (s : List Char) : Option (List Char) :=
  match matchD12Sep [sep] s with
  | some (m1, r1) =>
    match matchD12Sep [sep] r1 with
    | some (m2, r2) => (matchNDigits 4 r2).map (fun y => m1 ++ m2 ++ y)
    | none => none
  | none => none

/-- `\d{4}-\d{1,2}-\d{1,2}` anchored at the head (the `YYYY-MM-DD` shape). -/
def matchDateYMD (s : List Char) : Option (List Char) :=
  match matchNDigits 4 s with
  | some y =>
    match s.drop 4 with
    | '-' :: r1 =>
      match matchD12Sep ['-'] r1 with
      | some (m, r2) => (matchD12End r2).map (fun d => y ++ '-' :: m ++ d)
      | none => none
    | _ => none
  | none => none

/-- `\d{1,2}<sep>\d{2}` anchored at the head (the `HH:MM` / `HH.MM` shapes). -/
def matchTimeShape (sep : Char) (s : List Char) : Option (List Char) :=
  match matchD12Sep [sep] s with
  | some (m, r) => (matchNDigits 2 r).map (fun t => m ++ t)
  | none => none

/-- `\d{2,4}(?:\.\d{2})?` anchored at the head. -/
def matchAmountPlain (s : List Char) : Option (List Char) :=
  let r := digitRun s
  if 2 ≤ r.length then
    let d := r.take 4
    match s.drop d.length with
    | '.' :: r2 =>
      match matchNDigits 2 r2 with
      | some f => some (d ++ '.' :: f)
      | none => some d
    | _ => some d
  else none

/-- The greedy `(?:,\d{3})*` tail of the comma-grouped amount pattern. -/
def matchGroupedTail : ℕ → List Char → List Char
  | 0, _ => []
  | fuel + 1, s =>
    match s with
    | ',' :: r =>
      match matchNDigits 3 r with
      | some g => (',' :: g) ++ matchGroupedTail fuel (r.drop 3)
      | none => []
    | _ => []

/-- `\d{1,3}(?:,\d{3})*(?:\.\d{2})?` anchored at the head. -/
def matchAmountGrouped (s : List Char) : Option (List Char) :=
  let r := digitRun s
  if 1 ≤ r.length then
    let d := r.take 3
    let rest := s.drop d.length
    let tl := matchGroupedTail rest.length rest
    let rest2 := rest.drop tl.length
    let dec :=
      match rest2 with
      | '.' :: r2 =>
        match matchNDigits 2 r2 with
        | some f => '.' :: f
        | none => []
      | _ => []
    some (d ++ tl ++ dec)
  else none

/-- The lookahead `(?=\s*נקוד)`. -/
def lookaheadNekud (s : List Char) : Bool :=
  (s.dropWhile isWS).take 4 = "נקוד".toList

/-- `\d{1,2}(?=\s*נקוד)` anchored at the head (greedy, backtracking from two
digits to one). -/
def matchPointsBefore (s : List Char) : Option (List Char) :=
  if (matchNDigits 2 s).isSome && lookaheadNekud (s.drop 2) then some (s.take 2)
  else if (matchNDigits 1 s).isSome && lookaheadNekud (s.drop 1) then some (s.take 1)
  else none

/-- `(?:נקוד[ות]*\s*)\d{1,2}` anchored at the head; the non-capturing group is
part of the match. -/
def matchPointsAfter (s : List Char) : Option (List Char) :=
  if s.take 4 = "נקוד".toList then
    let r1 := s.drop 4
    let ots := r1.takeWhile (fun c => c = 'ו' || c = 'ת')
    let r2 := r1.drop ots.length
    let ws := r2.takeWhile isWS
    let r3 := r2.drop ws.length
    let d := digitRun r3
    if 1 ≤ d.length then some ("נקוד".toList ++ ots ++ ws ++ d.take 2) else none
  else none

/-- `\d+\s*\([^)]+\)` anchored at the head. -/
def matchSectionParen (s : List Char) : Option (List Char) :=
  let d := digitRun s
  if 1 ≤ d.length then
    let r1 := s.drop d.length
    let ws := r1.takeWhile isWS
    match r1.drop ws.length with
    | '(' :: r3 =>
      let inner := r3.takeWhile (fun c => !(c = ')'))
      if 1 ≤ inner.length ∧ r3.drop inner.length ≠ [] then
        some (d ++ ws ++ '(' :: inner ++ [')'])
      else none
    | _ => none
  else none

/-- `סעיף\s*\d+[א-ת]*` anchored at the head. -/
def matchSeifSection (s : List Char) : Option (List Char) :=
  if s.take 4 = "סעיף".toList then
    let r1 := s.drop 4
    let ws := r1.takeWhile isWS
    let r2 := r1.drop ws.length
    let d := digitRun r2
    if 1 ≤ d.length then
      some ("סעיף".toList ++ ws ++ d ++
        (r2.drop d.length).takeWhile (fun c => 0x5d0 ≤ c.val && c.val ≤ 0x5ea))
    else none
  else none

/-- Global-flag regex scan: try each start position left to right and resume
after the end of every match. Every matcher above returns a nonempty match, so
the `s.length` fuel is never exhausted. -/
def allMatchesAux (matchAt : List Char → Option (List Char)) : ℕ → List Char → List (List Char)
  | 0, _ => []
  | _ + 1, [] => []
  | fuel + 1, c :: r =>
    match matchAt (c :: r) with
    | some m => m :: allMatchesAux matchAt fuel ((c :: r).drop m.length)
    | none => allMatchesAux matchAt fuel r

/-- `text.match(pattern)` with the `g` flag: the list of all matches. -/
def allMatches (matchAt : List Char → Option (List Char)) (s : List Char) : List (List Char) :=
  allMatchesAux matchAt s.length s

/-- The `patterns` table of `extractValuePatterns`
(`textPreprocessingService.js:214-240`), in source order; keys without an
entry (`location`, `time` is present, `driverName`, `licenseNumber`) fall back
to the empty list as in `patterns[fieldType] || []`. -/
def patternsFor : PrepKey → List (List Char → Option (List Char))
  | .reportNumber => [matchDigitsMin 6, matchHyphen33]
  | .violationDate => [matchDateDMY '/', matchDateDMY '.', matchDateYMD]
  | .time => [matchTimeShape ':', matchTimeShape '.']
  | .fineAmount => [matchAmountPlain, matchAmountGrouped]
  | .points => [matchPointsBefore, matchPointsAfter]
  | .violationType => [matchSectionParen, matchSeifSection]
  | _ => []

/-- `extractValuePatterns` (`textPreprocessingService.js:213-253`): run every
pattern of the field in order and concatenate all matches. -/
def extractValuePatterns (text : List Char) (fieldType : PrepKey) : List (List Char) :=
  ((patternsFor fieldType).map (fun m => allMatches m text)).flatten

/-! ## Preprocessing pipeline (`textPreprocessingService.js`, `preprocessOCRText`) -/

/-- One entry of the `extractedValues` object. -/
structure ExtractedVal where
  values : List (List Char)
  confidence : ℚ
  source : List Char
  matchedKeyword : List Char
deriving DecidableEq

/-- The record returned by `preprocessOCRText`. The `processingInfo` block
(counters and a wall-clock timestamp) is not modelled. -/
structure Preprocessed where
  originalText : List Char
  normalizedText : List Char
  correctedText : List Char
  lines : List (List Char)
  detectedFields : PrepKey → Option Detection
  extractedValues : PrepKey → Option ExtractedVal

/-- `preprocessOCRText` (`textPreprocessingService.js:258-301`): normalize,
(identity) OCR correction, split into nonempty lines, fuzzy field detection,
pattern-based value extraction over the detected line and its successor. -/
def preprocessOCRText (rawText : List Char) : Preprocessed :=
  let normalizedText := normalizeHebrewText rawText
  let correctedText := correctHebrewOCRErrors normalizedText
  let lines := (splitOnNl correctedText).filter (fun line => 0 < (trimJS line).length)
  let detectedFields := detectFieldTypes lines
  let extractedValues := fun k =>
    match detectedFields k with
    | some fieldInfo =>
      let values := extractValuePatterns (fieldInfo.line ++ ' ' :: fieldInfo.nextLine) k
      if values ≠ [] then
        some ⟨values, fieldInfo.confidence, fieldInfo.line, fieldInfo.matchedKeyword⟩
      else none
    | none => none
  ⟨rawText, normalizedText, correctedText, lines, detectedFields, extractedValues⟩

/-! ## StructuredFieldExtractor (`aiFieldExtractionService.js`)

The catalog `FIELD_DEFINITIONS` has the four required fields followed by the
seven optional fields; `{...required, ...optional}` iterates them in that
order. A JavaScript object slot holding a string, an explicit `null`, or
nothing at all is modelled by `JsVal`. -/

/-- The eleven catalog field names of `FIELD_DEFINITIONS`
(`aiFieldExtractionService.js:17-77`). -/
inductive FieldKey where
  | reportNumber | violationDate | violationType | fineAmount
  | violationTime | location | driverName | licenseNumber | points
  | vehiclePlate | appealDeadline
deriving DecidableEq

/-- Spread order of `{...FIELD_DEFINITIONS.required, ...FIELD_DEFINITIONS.optional}`. -/
def catalogOrder : List FieldKey :=
  [.reportNumber, .violationDate, .violationType, .fineAmount,
   .violationTime, .location, .driverName, .licenseNumber, .points,
   .vehiclePlate, .appealDeadline]

/-- The four keys of `FIELD_DEFINITIONS.required` (also the `required` array of
`validateExtractedFields` in `ocrService.js:284`). -/
def requiredFieldNames : List FieldKey :=
  [.reportNumber, .violationDate, .violationType, .fineAmount]

/-- JavaScript field-name string of a catalog key (used in processing notes). -/
def fieldKeyName : FieldKey → String
  | .reportNumber => "reportNumber"
  | .violationDate => "violationDate"
  | .violationType => "violationType"
  | .fineAmount => "fineAmount"
  | .violationTime => "violationTime"
  | .location => "location"
  | .driverName => "driverName"
  | .licenseNumber => "licenseNumber"
  | .points => "points"
  | .vehiclePlate => "vehiclePlate"
  | .appealDeadline => "appealDeadline"

/-- A JavaScript object slot: missing key, explicit `null`, or a string. -/
inductive JsVal where
  | undef
  | null
  | str (s : List Char)
deriving DecidableEq

/-- JavaScript truthiness of a `JsVal` (only a nonempty string is truthy). -/
def JsVal.truthy : JsVal → Bool
  | .str s => s ≠ []
  | _ => false

/-- Digits-to-number accumulation (radix 10). -/
def natOfDigits (ds : List Char) : ℕ :=
  ds.foldl (fun acc c => 10 * acc + (c.toNat - 48)) 0

/-- `Number.prototype.toString` for the natural numbers produced here. -/
def natToChars (n : ℕ) : List Char :=
  (Nat.repr n).toList

/-- `parseInt(value)`: skip leading whitespace, optional sign, then leading
decimal digits; `none` models `NaN`. (JavaScript's automatic hexadecimal
detection for a `0x` prefix is not modelled; a `0x…` value parses here as 0,
which the 0–12 points range check accepts either way.) -/
def parseIntJS (s : List Char) : Option Int :=
  let t := s.dropWhile isWS
  match t with
  | '-' :: r =>
    let d := digitRun r
    if d = [] then none else some (-(natOfDigits d : Int))
  | '+' :: r =>
    let d := digitRun r
    if d = [] then none else some (natOfDigits d : Int)
  | r =>
    let d := digitRun r
    if d = [] then none else some (natOfDigits d : Int)

/-- Outcome of `validateFieldValue`: either a normalized value with a shape
confidence, or a rejection reason. -/
inductive VRes where
  | ok (normalizedValue : List Char) (confidence : ℚ)
  | fail (reason : String)
deriving DecidableEq

/-- Whether a `VRes` is a rejection (`!validationResult.isValid`). -/
def VRes.isFail : VRes → Bool
  | .fail _ => true
  | .ok _ _ => false

/-- `value.padStart(2, '0')` for the 1–2 digit day/month groups. -/
def pad2 (l : List Char) : List Char :=
  if l.length = 1 then '0' :: l else l

/-- The anchored date shape `^(\d{1,2})[\/\.](\d{1,2})[\/\.](\d{4})$`,
returning the three digit groups. -/
def matchAnchoredDate (value : List Char) : Option (List Char × List Char × List Char) :=
  let day := digitRun value
  if 1 ≤ day.length ∧ day.length ≤ 2 then
    match value.drop day.length with
    | s1 :: r1 =>
      if s1 = '/' ∨ s1 = '.' then
        let month := digitRun r1
        if 1 ≤ month.length ∧ month.length ≤ 2 then
          match r1.drop month.length with
          | s2 :: r2 =>
            if s2 = '/' ∨ s2 = '.' then
              let year := digitRun r2
              if year.length = 4 ∧ r2.drop 4 = [] then some (day, month, year) else none
            else none
          | [] => none
        else none
      else none
    | [] => none
  else none

/-- The anchored time shape `^\d{1,2}:\d{2}$`. -/
def matchAnchoredTime (value : List Char) : Bool :=
  let h := digitRun value
  if 1 ≤ h.length ∧ h.length ≤ 2 then
    match value.drop h.length with
    | ':' :: r =>
      let m := digitRun r
      m.length = 2 ∧ r.drop 2 = []
    | _ => false
  else false

/-- `validateFieldValue` (`aiFieldExtractionService.js:245-292`): per-field
shape validation and normalization of a value returned by the model. -/
def validateFieldValue (fieldName : FieldKey) (value : List Char) : VRes :=
  match fieldName with
  | .reportNumber =>
    if 6 ≤ value.length ∧ value.all isDigitChar then .ok value (19/20)
    else .fail "Report number must be 6+ digits"
  | .violationDate =>
    match matchAnchoredDate value with
    | none => .fail "Invalid date format"
    | some (day, month, year) =>
      if 31 < natOfDigits day ∨ 12 < natOfDigits month then .fail "Invalid date values"
      else .ok (pad2 day ++ '/' :: pad2 month ++ '/' :: year) (9/10)
  | .violationTime =>
    if matchAnchoredTime value then .ok value (17/20) else .fail "Invalid time format"
  | .fineAmount =>
    let digits := value.filter isDigitChar
    if digits = [] then .fail "Invalid fine amount"
    else
      let amount := natOfDigits digits
      if amount < 50 ∨ 10000 < amount then .fail "Invalid fine amount"
      else .ok (natToChars amount) (9/10)
  | .points =>
    match parseIntJS value with
    | none => .fail "Invalid points value"
    | some p =>
      if p < 0 ∨ 12 < p then .fail "Invalid points value"
      else .ok (natToChars p.toNat) (17/20)
  | _ =>
    let cleaned := trimJS value
    if cleaned.length < 2 ∨ 100 < cleaned.length then .fail "Text field too short or too long"
    else .ok cleaned (4/5)

/-- The parsed JSON response of the structured-generation call. -/
structure AiResponse where
  extractedFields : FieldKey → JsVal
  confidenceScores : FieldKey → Option ℚ
  processingNotes : List String

/-- Result record of `validateAIExtraction` (and of
`combineExtractionResults`): the loop assigns a confidence to every catalog
field, so the confidence map is total. -/
structure Validated where
  extractedFields : FieldKey → JsVal
  confidenceScores : FieldKey → ℚ
  processingNotes : List String

/-- The per-field body of the `validateAIExtraction` loop
(`aiFieldExtractionService.js:218-237`): the value slot written (absent when
shape validation rejects, `null` when the model reported none), the confidence
written, and the optional note pushed. -/
structure VOne where
  value : JsVal
  conf : ℚ
  note : Option String
deriving DecidableEq

/-- Per-field outcome of `validateAIExtraction` on a response. -/
def validateOne (aiResponse : AiResponse) (fieldName : FieldKey) : VOne :=
  let value := aiResponse.extractedFields fieldName
  let confidence := (aiResponse.confidenceScores fieldName).getD 0
  match value with
  | .str s =>
    if s ≠ [] ∧ s ≠ "null".toList then
      match validateFieldValue fieldName s with
      | .ok nv vc => ⟨.str nv, min confidence vc, none⟩
      | .fail reason =>
        ⟨.undef, 0, some ("Field " ++ fieldKeyName fieldName ++ " failed validation: " ++ reason)⟩
    else ⟨.null, 0, none⟩
  | _ => ⟨.null, 0, none⟩

/-- One iteration of the `validateAIExtraction` loop: assign the field's slots
and push its note. -/
def vaeStep (aiResponse : AiResponse) (acc : Validated) (fieldName : FieldKey) : Validated :=
  let one := validateOne aiResponse fieldName
  { extractedFields := fun g => if g = fieldName then one.value else acc.extractedFields g
    confidenceScores := fun g => if g = fieldName then one.conf else acc.confidenceScores g
    processingNotes := acc.processingNotes ++ one.note.toList }

/-- `validateAIExtraction` (`aiFieldExtractionService.js:210-240`): start from
the response's notes (`|| []`) and empty maps, then process every catalog
field in spread order. -/
def validateAIExtraction (aiResponse : AiResponse) : Validated :=
  catalogOrder.foldl (vaeStep aiResponse)
    ⟨fun _ => .undef, fun _ => 0, aiResponse.processingNotes⟩

/-- `combineExtractionResults` (`aiFieldExtractionService.js:297-324`): for
every preprocessing entry whose field also has a truthy AI value and a truthy
preprocessing confidence, blend the confidences 70/30; then scale every
confidence by the overall OCR confidence. -/
def combineExtractionResults (aiResults : Validated)
    (preprocessingResults : FieldKey → Option ℚ) (ocrConfidence : ℚ) : Validated :=
  let enhanced : FieldKey → Bool := fun f =>
    (aiResults.extractedFields f).truthy &&
      (match preprocessingResults f with
       | some p => p != 0
       | none => false)
  { extractedFields := aiResults.extractedFields
    confidenceScores := fun f =>
      (if enhanced f then
        aiResults.confidenceScores f * (7/10) + (preprocessingResults f).getD 0 * (3/10)
      else aiResults.confidenceScores f) * ocrConfidence
    processingNotes := aiResults.processingNotes ++
      (catalogOrder.filter enhanced).map
        (fun f => "Field " ++ fieldKeyName f ++ " enhanced with preprocessing confidence") }

/-- Correspondence between catalog keys and detector keys: the two objects are
joined by JavaScript string keys, so `violationTime` (catalog) never meets
`time` (detector), and the watch-list fields `vehiclePlate` / `appealDeadline`
have no detector entry at all. -/
def prepKeyOf : FieldKey → Option PrepKey
  | .reportNumber => some .reportNumber
  | .violationDate => some .violationDate
  | .violationType => some .violationType
  | .fineAmount => some .fineAmount
  | .violationTime => none
  | .location => some .location
  | .driverName => some .driverName
  | .licenseNumber => some .licenseNumber
  | .points => some .points
  | .vehiclePlate => none
  | .appealDeadline => none

/-- The record returned by `extractFieldsWithAI`: on success the validated and
combined extraction, on a raised/failed external call the `success: false`
record with empty maps (`aiFieldExtractionService.js:180-204`). Usage
accounting is not modelled. -/
structure AiOutcome where
  success : Bool
  errorMsg : Option String
  extractedFields : FieldKey → JsVal
  confidenceScores : FieldKey → Option ℚ
  processingNotes : List String

/-- `extractFieldsWithAI` (`aiFieldExtractionService.js:139-205`). The chat
completion, JSON parse, and any thrown error are modelled by the
`Except String AiResponse` argument: `.ok` is a parsed response, `.error` any
raised error (network failure, timeout, malformed JSON), which the source
catches and converts into a `success: false` return — it never rethrows. -/
def extractFieldsWithAI (preprocessedText : Preprocessed) (ocrConfidence : ℚ)
    (call : Except String AiResponse) : AiOutcome :=
  match call with
  | .ok aiResponse =>
    let validatedFields := validateAIExtraction aiResponse
    let prepConf : FieldKey → Option ℚ := fun f =>
      (prepKeyOf f).bind fun k => (preprocessedText.extractedValues k).map ExtractedVal.confidence
    let finalResult := combineExtractionResults validatedFields prepConf ocrConfidence
    { success := true
      errorMsg := none
      extractedFields := finalResult.extractedFields
      confidenceScores := fun f => some (finalResult.confidenceScores f)
      processingNotes := finalResult.processingNotes }
  | .error e =>
    { success := false
      errorMsg := some e
      extractedFields := fun _ => .undef
      confidenceScores := fun _ => none
      processingNotes := ["AI extraction failed: " ++ e] }

/-- The `validation` object built by `validateRequiredFields`. -/
structure ValidationRec where
  isValid : Bool
  missingFields : List FieldKey
  lowConfidenceFields : List (FieldKey × ℚ)
  completeness : ℚ
deriving DecidableEq

/-- Accumulator of the `validateRequiredFields` loop. -/
structure VrfAcc where
  isValid : Bool
  missingFields : List FieldKey
  lowConfidenceFields : List (FieldKey × ℚ)
  validFields : ℕ
deriving DecidableEq

/-- One iteration of the `validateRequiredFields` loop over a required field. -/
def vrfStep (extractionResult : AiOutcome) (minConfidence : ℚ)
    (acc : VrfAcc) (fieldName : FieldKey) : VrfAcc :=
  let value := extractionResult.extractedFields fieldName
  let confidence := (extractionResult.confidenceScores fieldName).getD 0
  if !value.truthy then
    { acc with missingFields := acc.missingFields ++ [fieldName], isValid := false }
  else if confidence < minConfidence then
    { acc with lowConfidenceFields := acc.lowConfidenceFields ++ [(fieldName, confidence)],
               isValid := false }
  else { acc with validFields := acc.validFields + 1 }

/-- `validateRequiredFields` (`aiFieldExtractionService.js:329-360`): classify
each required field as missing, low-confidence or valid, and report
`completeness = validFields / #required × 100`. -/
def validateRequiredFields (extractionResult : AiOutcome) (minConfidence : ℚ) : ValidationRec :=
  let acc := requiredFieldNames.foldl (vrfStep extractionResult minConfidence) ⟨true, [], [], 0⟩
  ⟨acc.isValid, acc.missingFields, acc.lowConfidenceFields,
    (acc.validFields : ℚ) / (requiredFieldNames.length : ℚ) * 100⟩

/-! ## Legacy parser and orchestrator (`ocrService.js`) -/

/-- `String.prototype.includes` (also the anchor-free Hebrew keyword regexes
of `parseOCRTextWithConfidence`, which are plain alternation-free substrings
apart from alternation handled at the call sites). -/
def containsSub (pat s : List Char) : Bool :=
  (List.range (s.length + 1)).any (fun i => (s.drop i).take pat.length = pat)

/-- Anchor-free regex search: first match over start positions, left to right. -/
def scanFirst (matchAt : List Char → Option (List Char)) : List Char → Option (List Char)
  | [] => matchAt []
  | c :: r =>
    match matchAt (c :: r) with
    | some m => some m
    | none => scanFirst matchAt r

/-- `(\d{2}\/\d{2}\/\d{4})` anchored at the head. -/
def matchDateStrict (s : List Char) : Option (List Char) :=
  match matchNDigits 2 s with
  | some d1 =>
    match s.drop 2 with
    | '/' :: r1 =>
      match matchNDigits 2 r1 with
      | some d2 =>
        match r1.drop 2 with
        | '/' :: r2 => (matchNDigits 4 r2).map (fun y => d1 ++ '/' :: d2 ++ '/' :: y)
        | _ => none
      | none => none
    | _ => none
  | none => none

/-- `(\d{2}:\d{2})` anchored at the head. -/
def matchTimeStrict (s : List Char) : Option (List Char) :=
  match matchNDigits 2 s with
  | some h =>
    match s.drop 2 with
    | ':' :: r => (matchNDigits 2 r).map (fun m => h ++ ':' :: m)
    | _ => none
  | none => none

/-- The lazy group `(\d+\s*\(?.*?\)?)` of the violation-type line: digits, then
whitespace, then an optional `(`; the lazy `.*?` matches empty, so the optional
closing `)` is taken only when it immediately follows. -/
def matchLazySection (s : List Char) : Option (List Char) :=
  let d := digitRun s
  if 1 ≤ d.length then
    let r1 := s.drop d.length
    let ws := r1.takeWhile isWS
    let par :=
      match r1.drop ws.length with
      | '(' :: r3 =>
        match r3 with
        | ')' :: _ => ['(', ')']
        | _ => ['(']
      | ')' :: _ => [')']
      | _ => []
    some (d ++ ws ++ par)
  else none

/-- `String.prototype.replace` with a plain-string pattern: remove the first
occurrence. -/
def replaceFirstStr (p : List Char) : List Char → List Char
  | [] => []
  | c :: r =>
    if (c :: r).take p.length = p then (c :: r).drop p.length
    else c :: replaceFirstStr p r

/-- `.replace(/רחוב:|מיקום יחסי:/, '')`: remove the leftmost occurrence of
either alternative, trying the first alternative first at each position. -/
def replaceFirstOfTwo (p1 p2 : List Char) : List Char → List Char
  | [] => []
  | c :: r =>
    if (c :: r).take p1.length = p1 then (c :: r).drop p1.length
    else if (c :: r).take p2.length = p2 then (c :: r).drop p2.length
    else c :: replaceFirstOfTwo p1 p2 r

/-- A symbol of the Vision response with its optional confidence. The
page→block→paragraph→word nesting of the response, which the source always
flattens, is modelled as one symbol list per page. -/
structure OcrSymbol where
  text : List Char
  conf : Option ℚ
deriving DecidableEq

/-- The Vision `documentTextDetection` response: `fullTextAnnotation?.text || ''`
and its pages of symbols. -/
structure OcrResult where
  fullText : List Char
  pages : List (List OcrSymbol)
deriving DecidableEq

/-- `getLineConfidence` (`ocrService.js:48-52`): mean confidence of the symbols
whose text occurs in the line, `0` when none match. -/
def getLineConfidence (symbols : List OcrSymbol) (line : List Char) : ℚ :=
  let matchingSymbols := symbols.filter (fun s => containsSub s.text line)
  if matchingSymbols = [] then 0
  else (matchingSymbols.map (fun s => s.conf.getD 0)).sum / (matchingSymbols.length : ℚ)

/-- `calculateVisionConfidence` (`ocrService.js:295-323`): mean confidence over
all symbols that carry one, `0` for an empty page list, `0.5` when no symbol
carries a confidence. -/
def calculateVisionConfidence (visionResult : OcrResult) : ℚ :=
  if visionResult.pages = [] then 0
  else
    let cs := visionResult.pages.flatten.filterMap OcrSymbol.conf
    if cs = [] then 1/2 else cs.sum / (cs.length : ℚ)

/-- Point update of a field-value map. -/
def setF (m : FieldKey → JsVal) (k : FieldKey) (v : JsVal) : FieldKey → JsVal :=
  fun g => if g = k then v else m g

/-- Point update of a confidence map. -/
def setC (m : FieldKey → Option ℚ) (k : FieldKey) (v : ℚ) : FieldKey → Option ℚ :=
  fun g => if g = k then some v else m g

/-- The per-line body of the `parseOCRTextWithConfidence` loop
(`ocrService.js:54-157`), applying each keyword branch in source order. -/
def parseLineStep (symbols : List OcrSymbol) (lines : List (List Char))
    (acc : (FieldKey → JsVal) × (FieldKey → Option ℚ)) (i : ℕ) :
    (FieldKey → JsVal) × (FieldKey → Option ℚ) :=
  let line := lines.getD i []
  let nextLine := lines.getD (i + 1) []
  let lineConfidence := getLineConfidence symbols line
  -- Report Number
  let acc :=
    if containsSub "מספר דוח".toList line || containsSub "פרטי דוח מספר".toList line then
      match (scanFirst (matchDigitsMin 6) line).orElse
          (fun _ => scanFirst (matchDigitsMin 6) nextLine) with
      | some m => (setF acc.1 .reportNumber (.str m), setC acc.2 .reportNumber lineConfidence)
      | none => acc
    else acc
  -- Violation Date and Time
  let acc :=
    if containsSub "תאריך עבירה".toList line then
      let acc :=
        match scanFirst matchDateStrict line with
        | some m => (setF acc.1 .violationDate (.str m), setC acc.2 .violationDate lineConfidence)
        | none => acc
      match scanFirst matchTimeStrict line with
      | some m => (setF acc.1 .violationTime (.str m), setC acc.2 .violationTime lineConfidence)
      | none => acc
    else acc
  -- Location
  let acc :=
    if containsSub "רחוב".toList line || containsSub "מיקום".toList line then
      let base := trimJS (replaceFirstOfTwo "רחוב:".toList "מיקום יחסי:".toList line)
      let loc :=
        if nextLine ≠ [] ∧ scanFirst matchDateStrict nextLine = none then
          base ++ ' ' :: nextLine
        else base
      (setF acc.1 .location (.str (trimJS loc)), setC acc.2 .location lineConfidence)
    else acc
  -- Violation Type / Legal Section
  let acc :=
    if containsSub "סעיף העבירה".toList line ||
        containsSub ("מס".toList ++ apostChar :: " עבירה".toList) line then
      match scanFirst matchLazySection line with
      | some m => (setF acc.1 .violationType (.str (trimJS m)), setC acc.2 .violationType lineConfidence)
      | none => acc
    else acc
  -- Fine Amount
  let acc :=
    if containsSub "סכום לתשלום".toList line then
      match scanFirst (matchDigitsMin 1) line with
      | some m => (setF acc.1 .fineAmount (.str m), setC acc.2 .fineAmount lineConfidence)
      | none => acc
    else acc
  -- Driver Name
  let acc :=
    if containsSub "אל הנהג".toList line then
      (setF acc.1 .driverName (.str (trimJS (replaceFirstStr "אל הנהג".toList line))),
       setC acc.2 .driverName lineConfidence)
    else acc
  -- License Number
  let acc :=
    if containsSub "מספר רישוי".toList line then
      (setF acc.1 .licenseNumber (.str nextLine), setC acc.2 .licenseNumber lineConfidence)
    else acc
  -- Vehicle Plate (if present)
  let acc :=
    if containsSub "לוחית ישראלי".toList line || containsSub "מספר רכב".toList line then
      match (scanFirst (matchNDigits 8) nextLine).orElse
          (fun _ => scanFirst (matchNDigits 8) line) with
      | some m => (setF acc.1 .vehiclePlate (.str m), setC acc.2 .vehiclePlate lineConfidence)
      | none => acc
    else acc
  -- Points (if present)
  let acc :=
    if containsSub "נקודות".toList line then
      match scanFirst (matchDigitsMin 1) line with
      | some m => (setF acc.1 .points (.str m), setC acc.2 .points lineConfidence)
      | none => acc
    else acc
  -- Appeal Deadline (if present): the date may sit up to five lines ahead
  if containsSub "מועד אחרון לערעור".toList line || containsSub "מועד ערעור".toList line ||
      containsSub "תאריך ערעור".toList line || containsSub "ערעור עד".toList line ||
      containsSub "מועד אחרון לתשלום".toList line then
    let probe := fun l => scanFirst matchDateStrict l
    match (probe line).orElse (fun _ => (probe nextLine).orElse (fun _ =>
        (probe (lines.getD (i + 2) [])).orElse (fun _ =>
        (probe (lines.getD (i + 3) [])).orElse (fun _ =>
        (probe (lines.getD (i + 4) [])).orElse (fun _ =>
        probe (lines.getD (i + 5) [])))))) with
    | some m => (setF acc.1 .appealDeadline (.str m), setC acc.2 .appealDeadline lineConfidence)
    | none => acc
  else acc

/-- `parseOCRTextWithConfidence` (`ocrService.js:32-160`): split the raw text
into trimmed nonempty lines and scan each line's keyword branches. -/
def parseOCRTextWithConfidence (text : List Char) (ocrResponse : OcrResult) :
    (FieldKey → JsVal) × (FieldKey → Option ℚ) :=
  let lines := ((splitOnNl text).map trimJS).filter (fun l => l ≠ [])
  let symbols := ocrResponse.pages.flatten
  (List.range lines.length).foldl (parseLineStep symbols lines) (fun _ => .undef, fun _ => none)

/-- The pipeline's terminal artifact. `processingInfo` metadata other than the
pipeline tag and the legacy `fallbackReason` (file type, sizes, timestamps,
engine label) is not modelled. -/
structure PipelineResult where
  extractedText : List Char
  extractedFields : FieldKey → JsVal
  confidenceScores : FieldKey → Option ℚ
  processingNotes : List String
  validation : ValidationRec
  pipeline : String
  fallbackReason : Option String

/-- `createLegacyResult` (`ocrService.js:326-347`): package a legacy parse with
the hard-coded validation block — valid iff at least one field was extracted,
empty missing/low-confidence lists, completeness fixed at 50. -/
def createLegacyResult (extractedText : List Char) (extractedFields : FieldKey → JsVal)
    (confidenceScores : FieldKey → Option ℚ) (errorMessage : Option String) : PipelineResult :=
  { extractedText := extractedText
    extractedFields := extractedFields
    confidenceScores := confidenceScores
    processingNotes := []
    validation := ⟨catalogOrder.any (fun f => extractedFields f != JsVal.undef), [], [], 50⟩
    pipeline := "legacy"
    fallbackReason := errorMessage }

/-- The watch-list of fields the model path historically misses
(`ocrService.js:203`). -/
def watchList : List FieldKey := [.points, .appealDeadline, .vehiclePlate]

/-- The gap-fill of `extractTextFromDocument` (`ocrService.js:202-221`): compute
the watch-list fields missing from the AI result, and for each of them splice
in a truthy legacy value together with its legacy confidence (`|| 0`); in the
source the legacy parse runs only when the missing list is nonempty, with the
same resulting maps. -/
def mergeWatchlist (aiFields : FieldKey → JsVal) (aiConfs : FieldKey → Option ℚ)
    (legacyFields : FieldKey → JsVal) (legacyConfs : FieldKey → Option ℚ) :
    (FieldKey → JsVal) × (FieldKey → Option ℚ) :=
  let missingFields := watchList.filter (fun f => !(aiFields f).truthy)
  if missingFields.isEmpty then (aiFields, aiConfs)
  else
    (fun f => if f ∈ missingFields ∧ (legacyFields f).truthy then legacyFields f else aiFields f,
     fun f =>
       if f ∈ missingFields ∧ (legacyFields f).truthy then some ((legacyConfs f).getD 0)
       else aiConfs f)

/-- The success branch of `extractTextFromDocument` (`ocrService.js:196-261`):
validate the required fields of the AI outcome (before the gap-fill, as in the
source), splice missing watch-list fields from the legacy parse, and package
the enhanced result. -/
def mkEnhancedResult (rawText : List Char) (ocr : OcrResult) (aiRes : AiOutcome) : PipelineResult :=
  let validation := validateRequiredFields aiRes (3/5)
  let legacy := parseOCRTextWithConfidence rawText ocr
  let final := mergeWatchlist aiRes.extractedFields aiRes.confidenceScores legacy.1 legacy.2
  { extractedText := rawText
    extractedFields := final.1
    confidenceScores := final.2
    processingNotes := aiRes.processingNotes
    validation := validation
    pipeline := "enhanced"
    fallbackReason := none }

/-- The catch block of `extractTextFromDocument` (`ocrService.js:263-277`):
re-run OCR, parse with the legacy parser, and return a legacy result carrying
the original error message; if the second OCR call also raises, throw the
combined hard failure. -/
def runFallback (ocrCall2 : Except String OcrResult) (errorMessage : String) :
    Except String PipelineResult :=
  match ocrCall2 with
  | .error fallbackError =>
    .error ("Both enhanced and legacy OCR failed: " ++ errorMessage ++ ", " ++ fallbackError)
  | .ok result =>
    let extractedText := result.fullText
    let parsed := parseOCRTextWithConfidence extractedText result
    .ok (createLegacyResult extractedText parsed.1 parsed.2 (some errorMessage))

/-- `extractTextFromDocument` (`ocrService.js:164-278`). The two
`documentTextDetection` calls (try block and catch block) and the OpenAI call
are the three external suspension points, passed as `Except` values. Raised
errors inside the try block are the first OCR call failing or the empty-text
guard; a failed AI call does not raise (it yields `success: false`, handled
inline by falling back to the legacy parse). -/
def extractTextFromDocument (ocrCall1 ocrCall2 : Except String OcrResult)
    (aiCall : Except String AiResponse) : Except String PipelineResult :=
  match ocrCall1 with
  | .error e => runFallback ocrCall2 e
  | .ok result =>
    let rawText := result.fullText
    if trimJS rawText = [] then runFallback ocrCall2 "No text detected in document"
    else
      let ocrConfidence := calculateVisionConfidence result
      let preprocessedText := preprocessOCRText rawText
      let aiExtractionResult := extractFieldsWithAI preprocessedText ocrConfidence aiCall
      if aiExtractionResult.success = false then
        let parsed := parseOCRTextWithConfidence rawText result
        .ok (createLegacyResult rawText parsed.1 parsed.2 none)
      else .ok (mkEnhancedResult rawText result aiExtractionResult)

/-- `validateExtractedFields` (`ocrService.js:283-292`), the exported helper
mirroring the required-field check over a bare field map. -/
def validateExtractedFields (fields : FieldKey → JsVal) : ValidationRec :=
  let missing := requiredFieldNames.filter (fun f => !(fields f).truthy)
  ⟨missing.isEmpty, missing, [],
    ((requiredFieldNames.length - missing.length : ℕ) : ℚ) / (requiredFieldNames.length : ℚ) * 100⟩

/-! ### Projections of a pipeline outcome used by the claim statements -/

/-- Whether an external call, or the whole document-analysis request, raised. -/
def callRaised {α : Type} : Except String α → Bool
  | .error _ => true
  | .ok _ => false

/-- The pipeline tag of a returned result. -/
def pipelineTag : Except String PipelineResult → Option String
  | .error _ => none
  | .ok r => some r.pipeline

/-- The validation block of a returned result. -/
def resultValidation : Except String PipelineResult → Option ValidationRec
  | .error _ => none
  | .ok r => some r.validation

/-- The legacy fallback reason of a returned result. -/
def resultFallbackReason : Except String PipelineResult → Option (Option String)
  | .error _ => none
  | .ok r => some r.fallbackReason

/-! ## Claim C10 — the OCR-error-correction pass is the identity -/

/-- The disabled correction pass fixes every string. -/
theorem correctHebrewOCRErrors_eq_self (t : List Char) : correctHebrewOCRErrors t = t := by
  unfold correctHebrewOCRErrors
  split <;> simp_all

/-- C10: `correctHebrewOCRErrors` returns its input unchanged for every string,
so in every preprocessing result the `correctedText` equals the
`normalizedText`. -/
theorem correctHebrewOCRErrors_identity (text : List Char) :
    correctHebrewOCRErrors text = text ∧
    (preprocessOCRText text).correctedText = (preprocessOCRText text).normalizedText :=
  ⟨correctHebrewOCRErrors_eq_self text,
   by simp only [preprocessOCRText]; exact correctHebrewOCRErrors_eq_self _⟩

/-! ## Claim C5 — watch-list gap-fill and its frame -/

/-- C5: for each watch-list field (`points`, `appealDeadline`, `vehiclePlate`)
that is absent from the model-assisted result, a truthy deterministic value is
spliced in together with its deterministic confidence, and every field outside
the watch-list keeps exactly the model value and confidence. -/
theorem mergeWatchlist_gapfill (aiF : FieldKey → JsVal) (aiC : FieldKey → Option ℚ)
    (legF : FieldKey → JsVal) (legC : FieldKey → Option ℚ) (f g : FieldKey) (c : ℚ)
    (hf : f ∈ watchList) (hmiss : (aiF f).truthy = false)
    (hleg : (legF f).truthy = true) (hc : legC f = some c) (hg : g ∉ watchList) :
    (mergeWatchlist aiF aiC legF legC).1 f = legF f ∧
    (mergeWatchlist aiF aiC legF legC).2 f = some c ∧
    (mergeWatchlist aiF aiC legF legC).1 g = aiF g ∧
    (mergeWatchlist aiF aiC legF legC).2 g = aiC g := by
  have hfm : f ∈ watchList.filter (fun x => !(aiF x).truthy) :=
    List.mem_filter.mpr ⟨hf, by simp [hmiss]⟩
  have hne : (watchList.filter (fun x => !(aiF x).truthy)).isEmpty = false := by
    rcases h : (watchList.filter (fun x => !(aiF x).truthy)).isEmpty with _ | _
    · rfl
    · rw [List.isEmpty_iff] at h
      rw [h] at hfm
      cases hfm
  have hgm : g ∉ watchList.filter (fun x => !(aiF x).truthy) := by
    intro h
    exact hg (List.mem_of_mem_filter h)
  simp only [mergeWatchlist, hne, Bool.false_eq_true, if_false]
  refine ⟨?_, ?_, ?_, ?_⟩
  · rw [if_pos ⟨hfm, hleg⟩]
  · rw [if_pos ⟨hfm, hleg⟩, hc]
    rfl
  · rw [if_neg (fun h => hgm h.1)]
  · rw [if_neg (fun h => hgm h.1)]

/-! ## Claim C3 — confidence composition in the model-assisted pass -/

/-- C3: in `combineExtractionResults`, a field present in the validated model
result whose detector pass also produced a (nonzero) confidence gets final
confidence `(0.7·model + 0.3·detector) · ocr`, and a field without a detector
entry keeps `model · ocr`. -/
theorem combineExtractionResults_formula (aiResults : Validated) (prep : FieldKey → Option ℚ)
    (ocrConfidence : ℚ) (f : FieldKey) (p : ℚ)
    (hval : (aiResults.extractedFields f).truthy = true)
    (hp : prep f = some p) (hp0 : p ≠ 0) :
    (combineExtractionResults aiResults prep ocrConfidence).confidenceScores f =
      (aiResults.confidenceScores f * (7/10) + p * (3/10)) * ocrConfidence ∧
    ∀ g, prep g = none →
      (combineExtractionResults aiResults prep ocrConfidence).confidenceScores g =
        aiResults.confidenceScores g * ocrConfidence := by
  constructor
  · simp [combineExtractionResults, hval, hp, hp0]
  · intro g hg
    simp [combineExtractionResults, hg]

/-! ## Claim C1 — fallback guarantee of the orchestrator -/

/-- C1: when the first OCR call succeeds with nonempty text and the
structured-generation call raises, the orchestrator still returns a non-failed
legacy result; and a hard failure is returned only when the enhanced attempt
raised (first OCR call failed or text was empty) and the fallback OCR call
raised as well. -/
theorem extractTextFromDocument_fallback (ocrCall2 : Except String OcrResult)
    (result : OcrResult) (e : String) (hnonempty : trimJS result.fullText ≠ []) :
    pipelineTag (extractTextFromDocument (.ok result) ocrCall2 (.error e)) = some "legacy" ∧
    ∀ (ocrCall1 : Except String OcrResult) (aiCall : Except String AiResponse),
      callRaised (extractTextFromDocument ocrCall1 ocrCall2 aiCall) = true →
      callRaised ocrCall2 = true ∧
        (callRaised ocrCall1 = true ∨ ∃ r, ocrCall1 = .ok r ∧ trimJS r.fullText = []) := by
  constructor
  · simp only [extractTextFromDocument]
    rw [if_neg hnonempty]
    simp [extractFieldsWithAI, pipelineTag, createLegacyResult]
  · intro ocrCall1 aiCall h
    cases ocrCall1 with
    | error e1 =>
      simp only [extractTextFromDocument] at h
      cases ocrCall2 with
      | error fe => exact ⟨rfl, Or.inl rfl⟩
      | ok r2 => simp [runFallback, callRaised] at h
    | ok r =>
      by_cases he : trimJS r.fullText = []
      · simp only [extractTextFromDocument, if_pos he] at h
        cases ocrCall2 with
        | error fe => exact ⟨rfl, Or.inr ⟨r, rfl, he⟩⟩
        | ok r2 => simp [runFallback, callRaised] at h
      · simp only [extractTextFromDocument, if_neg he] at h
        cases aiCall with
        | error ae => simp [extractFieldsWithAI, callRaised] at h
        | ok resp => simp [extractFieldsWithAI, callRaised] at h

/-- Witness for C1 at a concrete document: raw text `"hi"`, a failing model
call, and a healthy OCR collaborator. -/
theorem extractTextFromDocument_fallback_witness :
    pipelineTag (extractTextFromDocument (.ok ⟨"hi".toList, []⟩) (.ok ⟨"hi".toList, []⟩)
      (.error "model unavailable")) = some "legacy" :=
  (extractTextFromDocument_fallback (.ok ⟨"hi".toList, []⟩) ⟨"hi".toList, []⟩
    "model unavailable" (by decide)).1

/-! ## Claim C7 — behaviour on empty OCR text -/

/-- Counterexample to C7: when OCR returns empty text, the request does not
abort — the thrown `'No text detected in document'` is caught by the
orchestrator's own catch block, which re-runs OCR and returns a legacy
`FieldExtractionResult` (with zero extracted fields) carrying that message as
its fallback reason. -/
theorem emptyText_still_returns_result :
    pipelineTag (extractTextFromDocument (.ok ⟨[], []⟩) (.ok ⟨[], []⟩) (.error "unused"))
      = some "legacy" ∧
    resultFallbackReason (extractTextFromDocument (.ok ⟨[], []⟩) (.ok ⟨[], []⟩) (.error "unused"))
      = some (some "No text detected in document") ∧
    resultValidation (extractTextFromDocument (.ok ⟨[], []⟩) (.ok ⟨[], []⟩) (.error "unused"))
      = some ⟨false, [], [], 50⟩ := by
  refine ⟨by decide, by decide, by decide⟩

/-- C7 as amended: empty OCR text makes the enhanced pass raise before any
field extraction, but the catch-block fallback still runs; the request ends in
a hard failure only if the second OCR call raises, and otherwise returns a
legacy result whose fallback reason is the recognition-failure message. -/
theorem emptyText_fallback_shape (result : OcrResult) (ocrCall2 : Except String OcrResult)
    (aiCall : Except String AiResponse) (hempty : trimJS result.fullText = []) :
    (∀ fe, ocrCall2 = .error fe →
      callRaised (extractTextFromDocument (.ok result) ocrCall2 aiCall) = true) ∧
    (∀ r2, ocrCall2 = .ok r2 →
      pipelineTag (extractTextFromDocument (.ok result) ocrCall2 aiCall) = some "legacy" ∧
      resultFallbackReason (extractTextFromDocument (.ok result) ocrCall2 aiCall) =
        some (some "No text detected in document")) := by
  constructor
  · intro fe h2
    subst h2
    simp [extractTextFromDocument, if_pos hempty, runFallback, callRaised]
  · intro r2 h2
    subst h2
    simp [extractTextFromDocument, if_pos hempty, runFallback, pipelineTag,
      resultFallbackReason, createLegacyResult]

/-- Witness for the amended C7 at a concrete empty document. -/
theorem emptyText_fallback_shape_witness :
    pipelineTag (extractTextFromDocument (.ok ⟨[], []⟩) (.ok ⟨"x".toList, []⟩) (.error "unused"))
      = some "legacy" ∧
    resultFallbackReason (extractTextFromDocument (.ok ⟨[], []⟩) (.ok ⟨"x".toList, []⟩)
      (.error "unused")) = some (some "No text detected in document") :=
  (emptyText_fallback_shape ⟨[], []⟩ (.ok ⟨"x".toList, []⟩) (.error "unused") (by decide)).2
    ⟨"x".toList, []⟩ rfl

/-! ## Claim C2 — completeness formula and overall validity -/

/-- The completeness formula exactly as the specification words it: the number
of required fields that are non-absent and have confidence at least the
threshold, over the number of required fields, times 100. -/
def specCompleteness (fields : FieldKey → JsVal) (confs : FieldKey → Option ℚ)
    (threshold : ℚ) : ℚ :=
  ((requiredFieldNames.countP
      (fun f => (fields f).truthy && decide (threshold ≤ (confs f).getD 0)) : ℕ) : ℚ) /
    (requiredFieldNames.length : ℚ) * 100

/-- The spec-worded completeness of a returned pipeline result. -/
def resultSpecCompleteness : Except String PipelineResult → ℚ → Option ℚ
  | .error _, _ => none
  | .ok r, thr => some (specCompleteness r.extractedFields r.confidenceScores thr)

/-- Counterexample to C2: a pipeline run that falls back to the legacy parser
(model call raises, raw text `"hi"` with no recognizable fields) returns the
hard-coded legacy validation block — completeness 50 although the claimed
formula yields 0, and overall validity false although both the
missing-required and low-confidence lists are empty. -/
theorem legacy_validation_breaks_formula :
    resultValidation (extractTextFromDocument (.ok ⟨"hi".toList, []⟩) (.ok ⟨"hi".toList, []⟩)
      (.error "model down")) = some ⟨false, [], [], 50⟩ ∧
    resultSpecCompleteness (extractTextFromDocument (.ok ⟨"hi".toList, []⟩)
      (.ok ⟨"hi".toList, []⟩) (.error "model down")) (3/5) = some 0 ∧
    (50 : ℚ) ≠ 0 := by
  refine ⟨by decide, by decide, by decide⟩

/-- A required field counts as valid in `validateRequiredFields`: truthy value
and confidence not below the threshold. -/
def vrfValid (ai : AiOutcome) (minC : ℚ) (f : FieldKey) : Bool :=
  (ai.extractedFields f).truthy && !decide ((ai.confidenceScores f).getD 0 < minC)

theorem vrf_valid_count (ai : AiOutcome) (minC : ℚ) (l : List FieldKey) (acc : VrfAcc) :
    (l.foldl (vrfStep ai minC) acc).validFields = acc.validFields + l.countP (vrfValid ai minC) := by
  induction l generalizing acc with
  | nil => simp
  | cons a t ih =>
    rw [List.foldl_cons, ih]
    by_cases h1 : (ai.extractedFields a).truthy <;>
      by_cases h2 : (ai.confidenceScores a).getD 0 < minC <;>
        simp [vrfStep, vrfValid, h1, h2, List.countP_cons] <;> omega

theorem vrf_missing_filter (ai : AiOutcome) (minC : ℚ) (l : List FieldKey) (acc : VrfAcc) :
    (l.foldl (vrfStep ai minC) acc).missingFields =
      acc.missingFields ++ l.filter (fun f => !(ai.extractedFields f).truthy) := by
  induction l generalizing acc with
  | nil => simp
  | cons a t ih =>
    rw [List.foldl_cons, ih]
    by_cases h1 : (ai.extractedFields a).truthy <;>
      by_cases h2 : (ai.confidenceScores a).getD 0 < minC <;>
        simp [vrfStep, h1, h2, List.filter_cons]

theorem vrf_low_filter (ai : AiOutcome) (minC : ℚ) (l : List FieldKey) (acc : VrfAcc) :
    (l.foldl (vrfStep ai minC) acc).lowConfidenceFields =
      acc.lowConfidenceFields ++
        (l.filter (fun f => (ai.extractedFields f).truthy &&
            decide ((ai.confidenceScores f).getD 0 < minC))).map
          (fun f => (f, (ai.confidenceScores f).getD 0)) := by
  induction l generalizing acc with
  | nil => simp
  | cons a t ih =>
    rw [List.foldl_cons, ih]
    by_cases h1 : (ai.extractedFields a).truthy <;>
      by_cases h2 : (ai.confidenceScores a).getD 0 < minC <;>
        simp [vrfStep, h1, h2, List.filter_cons]

theorem vrf_isValid_all (ai : AiOutcome) (minC : ℚ) (l : List FieldKey) (acc : VrfAcc) :
    (l.foldl (vrfStep ai minC) acc).isValid = (acc.isValid && l.all (vrfValid ai minC)) := by
  induction l generalizing acc with
  | nil => simp
  | cons a t ih =>
    rw [List.foldl_cons, ih]
    by_cases h1 : (ai.extractedFields a).truthy <;>
      by_cases h2 : (ai.confidenceScores a).getD 0 < minC <;>
        simp [vrfStep, vrfValid, h1, h2]

/-- Characterization of `validateRequiredFields`: completeness is the valid
count over four times 100, and validity holds exactly when the two defect
lists are empty. -/
theorem validateRequiredFields_spec (ai : AiOutcome) (minC : ℚ) :
    (validateRequiredFields ai minC).completeness =
      ((requiredFieldNames.countP (vrfValid ai minC) : ℕ) : ℚ) /
        (requiredFieldNames.length : ℚ) * 100 ∧
    ((validateRequiredFields ai minC).isValid = true ↔
      (validateRequiredFields ai minC).missingFields = [] ∧
      (validateRequiredFields ai minC).lowConfidenceFields = []) := by
  have hc := vrf_valid_count ai minC requiredFieldNames ⟨true, [], [], 0⟩
  have hm := vrf_missing_filter ai minC requiredFieldNames ⟨true, [], [], 0⟩
  have hl := vrf_low_filter ai minC requiredFieldNames ⟨true, [], [], 0⟩
  have hv := vrf_isValid_all ai minC requiredFieldNames ⟨true, [], [], 0⟩
  have hpoint : ∀ f, vrfValid ai minC f = true ↔
      (¬ (!(ai.extractedFields f).truthy) = true ∧
       ¬ ((ai.extractedFields f).truthy &&
          decide ((ai.confidenceScores f).getD 0 < minC)) = true) := by
    intro f
    rcases h1 : (ai.extractedFields f).truthy <;>
      rcases h2 : decide ((ai.confidenceScores f).getD 0 < minC) <;>
        simp [vrfValid, h1, h2]
  constructor
  · simp only [validateRequiredFields, hc]
    norm_num
  · simp only [validateRequiredFields, hm, hl, hv]
    simp only [Bool.true_and, List.nil_append, List.map_eq_nil_iff, List.filter_eq_nil_iff,
      List.all_eq_true]
    constructor
    · intro h
      exact ⟨fun f hf => ((hpoint f).mp (h f hf)).1, fun f hf => ((hpoint f).mp (h f hf)).2⟩
    · intro h f hf
      exact (hpoint f).mpr ⟨h.1 f hf, h.2 f hf⟩

/-- The watch-list gap-fill never touches a required field. -/
theorem mergeWatchlist_required (aiF : FieldKey → JsVal) (aiC : FieldKey → Option ℚ)
    (legF : FieldKey → JsVal) (legC : FieldKey → Option ℚ) (f : FieldKey)
    (hf : f ∈ requiredFieldNames) :
    (mergeWatchlist aiF aiC legF legC).1 f = aiF f ∧
    (mergeWatchlist aiF aiC legF legC).2 f = aiC f := by
  have hnw : f ∉ watchList := by
    fin_cases hf <;> decide
  have hnm : f ∉ watchList.filter (fun x => !(aiF x).truthy) :=
    fun h => hnw (List.mem_of_mem_filter h)
  simp only [mergeWatchlist]
  split
  · exact ⟨rfl, rfl⟩
  · exact ⟨if_neg (fun h => hnm h.1), if_neg (fun h => hnm h.1)⟩

theorem extractFieldsWithAI_fail_success (pre : Preprocessed) (ocr : ℚ) (e : String) :
    (extractFieldsWithAI pre ocr (.error e)).success = false := rfl

theorem extractFieldsWithAI_ok_success (pre : Preprocessed) (ocr : ℚ) (resp : AiResponse) :
    (extractFieldsWithAI pre ocr (.ok resp)).success = true := rfl

/-- A fallback return is always tagged `"legacy"`. -/
theorem runFallback_tag (ocrCall2 : Except String OcrResult) (e : String) (res : PipelineResult)
    (h : runFallback ocrCall2 e = .ok res) : res.pipeline = "legacy" := by
  cases ocrCall2 with
  | error fe => simp [runFallback] at h
  | ok r2 =>
    simp only [runFallback, Except.ok.injEq] at h
    rw [← h]
    rfl

/-- Inversion of a successful enhanced run: it came from a successful first
OCR call with nonempty text and a successful model call, and the result is
`mkEnhancedResult` of those. -/
theorem enhanced_shape (o1 o2 : Except String OcrResult) (ai : Except String AiResponse)
    (res : PipelineResult) (hok : extractTextFromDocument o1 o2 ai = .ok res)
    (henh : res.pipeline = "enhanced") :
    ∃ r resp, o1 = .ok r ∧ ai = .ok resp ∧ trimJS r.fullText ≠ [] ∧
      res = mkEnhancedResult r.fullText r
        (extractFieldsWithAI (preprocessOCRText r.fullText) (calculateVisionConfidence r)
          (.ok resp)) := by
  cases o1 with
  | error e =>
    exfalso
    have := runFallback_tag o2 e res hok
    rw [this] at henh
    exact absurd henh (by decide)
  | ok r =>
    by_cases he : trimJS r.fullText = []
    · exfalso
      simp only [extractTextFromDocument, if_pos he] at hok
      have := runFallback_tag o2 _ res hok
      rw [this] at henh
      exact absurd henh (by decide)
    · cases ai with
      | error ae =>
        exfalso
        simp only [extractTextFromDocument, if_neg he] at hok
        split at hok
        · rw [Except.ok.injEq] at hok
          rw [← hok] at henh
          simp [createLegacyResult] at henh
        · next hcond => exact absurd (extractFieldsWithAI_fail_success _ _ _) hcond
      | ok resp =>
        refine ⟨r, resp, rfl, rfl, he, ?_⟩
        simp only [extractTextFromDocument, if_neg he] at hok
        split at hok
        · next hcond =>
            rw [extractFieldsWithAI_ok_success] at hcond
            cases hcond
        · rw [Except.ok.injEq] at hok
          exact hok.symm

/-- Bool bridge between "not below threshold" and "at least threshold". -/
theorem not_lt_decide_eq (a b : ℚ) : (!decide (a < b)) = decide (b ≤ a) := by
  by_cases h : a < b
  · simp [h, not_le.mpr h]
  · simp [h, le_of_not_lt h]

/-- C2 as amended: for every result the pipeline returns through the enhanced
(model-assisted) path, the reported completeness equals the claimed formula at
the pipeline threshold 0.6 and overall validity holds exactly when both defect
lists are empty; legacy fallback results instead carry the hard-coded block
refuted above. -/
theorem validation_matches_formula_enhanced (o1 o2 : Except String OcrResult)
    (ai : Except String AiResponse) (res : PipelineResult)
    (hok : extractTextFromDocument o1 o2 ai = .ok res) (henh : res.pipeline = "enhanced") :
    res.validation.completeness = specCompleteness res.extractedFields res.confidenceScores (3/5) ∧
    (res.validation.isValid = true ↔
      res.validation.missingFields = [] ∧ res.validation.lowConfidenceFields = []) := by
  obtain ⟨r, resp, ho1, hai, hne, hres⟩ := enhanced_shape o1 o2 ai res hok henh
  subst hres
  have hval : (mkEnhancedResult r.fullText r
      (extractFieldsWithAI (preprocessOCRText r.fullText) (calculateVisionConfidence r)
        (.ok resp))).validation =
      validateRequiredFields (extractFieldsWithAI (preprocessOCRText r.fullText)
        (calculateVisionConfidence r) (.ok resp)) (3/5) := rfl
  rw [hval]
  obtain ⟨hcomp, hiff⟩ := validateRequiredFields_spec (extractFieldsWithAI
    (preprocessOCRText r.fullText) (calculateVisionConfidence r) (.ok resp)) (3/5)
  refine ⟨?_, hiff⟩
  rw [hcomp]
  have hcount : requiredFieldNames.countP (vrfValid (extractFieldsWithAI
        (preprocessOCRText r.fullText) (calculateVisionConfidence r) (.ok resp)) (3/5)) =
      requiredFieldNames.countP (fun f =>
        ((mkEnhancedResult r.fullText r (extractFieldsWithAI (preprocessOCRText r.fullText)
            (calculateVisionConfidence r) (.ok resp))).extractedFields f).truthy &&
          decide ((3:ℚ)/5 ≤ ((mkEnhancedResult r.fullText r (extractFieldsWithAI
            (preprocessOCRText r.fullText) (calculateVisionConfidence r)
            (.ok resp))).confidenceScores f).getD 0)) := by
    apply List.countP_congr
    intro f hf
    obtain ⟨hfld, hcf⟩ := mergeWatchlist_required _ _ _ _ f hf
    have h1 : (mkEnhancedResult r.fullText r (extractFieldsWithAI (preprocessOCRText r.fullText)
        (calculateVisionConfidence r) (.ok resp))).extractedFields f =
        (extractFieldsWithAI (preprocessOCRText r.fullText) (calculateVisionConfidence r)
          (.ok resp)).extractedFields f := hfld
    have h2 : (mkEnhancedResult r.fullText r (extractFieldsWithAI (preprocessOCRText r.fullText)
        (calculateVisionConfidence r) (.ok resp))).confidenceScores f =
        (extractFieldsWithAI (preprocessOCRText r.fullText) (calculateVisionConfidence r)
          (.ok resp)).confidenceScores f := hcf
    rw [vrfValid, h1, h2, not_lt_decide_eq]
  rw [hcount]
  rfl

/-- Concrete OCR outcome used to witness the amended C2. -/
def sampleOcr : OcrResult := ⟨"hi".toList, []⟩

/-- Concrete model response used to witness the amended C2. -/
def sampleResp : AiResponse := ⟨fun _ => JsVal.null, fun _ => none, []⟩

/-- The enhanced result the pipeline returns on `sampleOcr` and `sampleResp`. -/
def sampleEnhanced : PipelineResult :=
  mkEnhancedResult "hi".toList sampleOcr
    (extractFieldsWithAI (preprocessOCRText "hi".toList) (calculateVisionConfidence sampleOcr)
      (.ok sampleResp))

/-- Witness for the amended C2 at a concrete enhanced pipeline run. -/
theorem validation_matches_formula_enhanced_witness :
    sampleEnhanced.validation.completeness =
      specCompleteness sampleEnhanced.extractedFields sampleEnhanced.confidenceScores (3/5) ∧
    (sampleEnhanced.validation.isValid = true ↔
      sampleEnhanced.validation.missingFields = [] ∧
      sampleEnhanced.validation.lowConfidenceFields = []) :=
  validation_matches_formula_enhanced (.ok sampleOcr) (.ok sampleOcr) (.ok sampleResp)
    sampleEnhanced rfl rfl

/-! ## Claim C6 — per-field discard on shape-validation failure -/

theorem vae_foldl_untouched (resp : AiResponse) (l : List FieldKey) (acc : Validated)
    (f : FieldKey) (hf : f ∉ l) :
    (l.foldl (vaeStep resp) acc).extractedFields f = acc.extractedFields f ∧
    (l.foldl (vaeStep resp) acc).confidenceScores f = acc.confidenceScores f := by
  induction l generalizing acc with
  | nil => exact ⟨rfl, rfl⟩
  | cons a t ih =>
    have hfa : f ≠ a := fun h => hf (h ▸ List.mem_cons_self a t)
    have hft : f ∉ t := fun h => hf (List.mem_cons_of_mem a h)
    rw [List.foldl_cons]
    obtain ⟨h1, h2⟩ := ih (vaeStep resp acc a) hft
    rw [h1, h2]
    exact ⟨by simp [vaeStep, hfa], by simp [vaeStep, hfa]⟩

/-- The `validateAIExtraction` loop writes each field's slots exactly from its
own per-field outcome. -/
theorem vae_foldl_point (resp : AiResponse) (l : List FieldKey) (acc : Validated)
    (f : FieldKey) (hf : f ∈ l) (hnd : l.Nodup) :
    (l.foldl (vaeStep resp) acc).extractedFields f = (validateOne resp f).value ∧
    (l.foldl (vaeStep resp) acc).confidenceScores f = (validateOne resp f).conf := by
  induction l generalizing acc with
  | nil => cases hf
  | cons a t ih =>
    obtain ⟨ha, hndt⟩ := List.nodup_cons.mp hnd
    rw [List.foldl_cons]
    by_cases hfa : f = a
    · subst hfa
      obtain ⟨h1, h2⟩ := vae_foldl_untouched resp t (vaeStep resp acc f) f ha
      rw [h1, h2]
      exact ⟨by simp [vaeStep], by simp [vaeStep]⟩
    · exact ih _ (List.mem_of_ne_of_mem hfa hf) hndt

/-- The notes of the loop are the response notes followed by the per-field
failure notes in catalog order. -/
theorem vae_foldl_notes (resp : AiResponse) (l : List FieldKey) (acc : Validated) :
    (l.foldl (vaeStep resp) acc).processingNotes =
      acc.processingNotes ++ l.filterMap (fun g => (validateOne resp g).note) := by
  induction l generalizing acc with
  | nil => simp
  | cons a t ih =>
    rw [List.foldl_cons, ih]
    rcases h : (validateOne resp a).note with _ | n <;>
      simp [vaeStep, h, List.filterMap_cons]

theorem mem_catalogOrder (f : FieldKey) : f ∈ catalogOrder := by
  cases f <;> simp [catalogOrder]

theorem validateAIExtraction_point (resp : AiResponse) (f : FieldKey) :
    (validateAIExtraction resp).extractedFields f = (validateOne resp f).value ∧
    (validateAIExtraction resp).confidenceScores f = (validateOne resp f).conf :=
  vae_foldl_point resp catalogOrder _ f (mem_catalogOrder f) (by decide)

/-- C6: a field whose model value is truthy but fails its shape validation is
discarded — absent in the validated result with confidence 0 and a failure
note appended — while every other field keeps its own per-field outcome, and
the model pass as a whole still succeeds. -/
theorem validateAIExtraction_discard (resp : AiResponse) (f : FieldKey) (s : List Char)
    (hval : resp.extractedFields f = .str s) (hne : s ≠ []) (hnn : s ≠ "null".toList)
    (hfail : (validateFieldValue f s).isFail = true) :
    (validateAIExtraction resp).extractedFields f = .undef ∧
    (validateAIExtraction resp).confidenceScores f = 0 ∧
    (∀ reason, validateFieldValue f s = .fail reason →
      ("Field " ++ fieldKeyName f ++ " failed validation: " ++ reason) ∈
        (validateAIExtraction resp).processingNotes) ∧
    (∀ g, g ≠ f →
      (validateAIExtraction resp).extractedFields g = (validateOne resp g).value ∧
      (validateAIExtraction resp).confidenceScores g = (validateOne resp g).conf) ∧
    (∀ (pre : Preprocessed) (ocr : ℚ),
      (extractFieldsWithAI pre ocr (.ok resp)).success = true) := by
  obtain ⟨reason, hreason⟩ : ∃ reason, validateFieldValue f s = .fail reason := by
    rcases h : validateFieldValue f s with _ | r
    · rw [h] at hfail
      cases hfail
    · exact ⟨r, rfl⟩
  have hone : validateOne resp f =
      ⟨.undef, 0, some ("Field " ++ fieldKeyName f ++ " failed validation: " ++ reason)⟩ := by
    have hnn' : ¬s = ['n', 'u', 'l', 'l'] := fun h => hnn (by rw [h]; rfl)
    simp [validateOne, hval, hne, hnn', hreason]
  obtain ⟨hpf, hpc⟩ := validateAIExtraction_point resp f
  refine ⟨by rw [hpf, hone], by rw [hpc, hone], ?_, ?_, ?_⟩
  · intro reason2 hreason2
    rw [hreason] at hreason2
    obtain rfl : reason = reason2 := by cases hreason2; rfl
    have hnotes := vae_foldl_notes resp catalogOrder
      ⟨fun _ => .undef, fun _ => 0, resp.processingNotes⟩
    show _ ∈ (validateAIExtraction resp).processingNotes
    rw [validateAIExtraction, hnotes]
    refine List.mem_append_right _ (List.mem_filterMap.mpr ⟨f, mem_catalogOrder f, ?_⟩)
    rw [hone]
  · intro g _
    exact validateAIExtraction_point resp g
  · intro pre ocr
    rfl

/-- Witness for C6: the structured-generation service answers
`fineAmount: "abc"`, which fails the numeric shape rule and is discarded. -/
theorem validateAIExtraction_discard_witness :
    (validateAIExtraction ⟨fun f => if f = .fineAmount then .str "abc".toList else .null,
        fun _ => some (1/2), []⟩).extractedFields .fineAmount = .undef ∧
    (validateAIExtraction ⟨fun f => if f = .fineAmount then .str "abc".toList else .null,
        fun _ => some (1/2), []⟩).confidenceScores .fineAmount = 0 :=
  ⟨(validateAIExtraction_discard _ .fineAmount "abc".toList (by decide) (by decide) (by decide)
      (by decide)).1,
   (validateAIExtraction_discard _ .fineAmount "abc".toList (by decide) (by decide) (by decide)
      (by decide)).2.1⟩

/-! ## Claim C8 — exact keyword lines and detection confidence -/

theorem edAux_self (fuel : ℕ) (l : List Char) : editDistanceAux fuel l l = 0 := by
  induction fuel generalizing l with
  | zero => rfl
  | succ f ih =>
    cases l with
    | nil => rfl
    | cons a s =>
      have h3 := ih s
      simp only [editDistanceAux, h3, eq_self_iff_true, if_true]
      omega

theorem editDistance_self (l : List Char) : editDistance l l = 0 :=
  edAux_self _ l

theorem edAux_le_max (fuel : ℕ) : ∀ s1 s2 : List Char, s1.length + s2.length ≤ fuel →
    editDistanceAux fuel s1 s2 ≤ max s1.length s2.length := by
  induction fuel with
  | zero => intro s1 s2 _; exact Nat.zero_le _
  | succ f ih =>
    intro s1 s2 h
    cases s1 with
    | nil => simp [editDistanceAux]
    | cons a t1 =>
      cases s2 with
      | nil => simp [editDistanceAux]
      | cons b t2 =>
        have hC : editDistanceAux f t1 t2 ≤ max t1.length t2.length := by
          apply ih
          simp only [List.length_cons] at h
          omega
        have hcost : (if a = b then 0 else 1) ≤ 1 := by split <;> omega
        simp only [editDistanceAux, List.length_cons]
        omega

theorem editDistance_le_max (s1 s2 : List Char) :
    editDistance s1 s2 ≤ max s1.length s2.length :=
  edAux_le_max _ s1 s2 le_rfl

/-- The similarity of any fuzzy result is nonnegative, because the edit
distance never exceeds the longer operand. -/
theorem similarity_nonneg (cw kw : List Char) :
    (0 : ℚ) ≤ 1 - (editDistance cw kw : ℚ) / (max cw.length kw.length : ℕ) := by
  rcases Nat.eq_zero_or_pos (max cw.length kw.length) with h0 | hpos
  · have hd : editDistance cw kw = 0 :=
      Nat.le_zero.mp (h0 ▸ editDistance_le_max cw kw)
    simp [hd]
  · have hd : (editDistance cw kw : ℚ) ≤ ((max cw.length kw.length : ℕ) : ℚ) := by
      exact_mod_cast editDistance_le_max cw kw
    have hden : (0 : ℚ) < ((max cw.length kw.length : ℕ) : ℚ) := by exact_mod_cast hpos
    have := (div_le_one hden).mpr hd
    linarith

theorem isFuzzyMatchGo_exact_mem (cw : List Char) (kws : List (List Char)) (h : cw ∈ kws) :
    (isFuzzyMatchGo cw kws).isSome = true := by
  induction kws with
  | nil => cases h
  | cons k t ih =>
    simp only [isFuzzyMatchGo]
    split
    · rfl
    · next hcond =>
      rcases List.mem_cons.mp h with rfl | hmem
      · exact absurd (Or.inl (by rw [editDistance_self]; omega)) hcond
      · exact ih hmem

theorem isFuzzyMatchGo_sim_eq (cw : List Char) (kws : List (List Char)) (fr : FuzzyRes)
    (h : isFuzzyMatchGo cw kws = some fr) :
    fr.similarity = 1 - (editDistance cw fr.keyword : ℚ) /
      (max cw.length fr.keyword.length : ℕ) := by
  induction kws with
  | nil => cases h
  | cons k t ih =>
    simp only [isFuzzyMatchGo] at h
    split at h
    · rw [Option.some.injEq] at h
      rw [← h]
    · exact ih h

theorem detect_foldl_isSome (lines : List (List Char)) (k : PrepKey) (l : List ℕ)
    (acc : Option Detection)
    (h : acc.isSome = true ∨
      ∃ i ∈ l, (isFuzzyMatch (lines.getD i []) (TRAFFIC_KEYWORDS k)).isSome = true) :
    (l.foldl (detectStep lines k) acc).isSome = true := by
  induction l generalizing acc with
  | nil =>
    rcases h with h | ⟨i, hi, _⟩
    · exact h
    · cases hi
  | cons a t ih =>
    rw [List.foldl_cons]
    rcases hm : isFuzzyMatch (lines.getD a []) (TRAFFIC_KEYWORDS k) with _ | fr
    · have hstep : detectStep lines k acc a = acc := by
        simp only [detectStep]
        rw [hm]
      rw [hstep]
      apply ih
      rcases h with h | ⟨i, hi, hsome⟩
      · exact Or.inl h
      · rcases List.mem_cons.mp hi with rfl | hit
        · rw [hm] at hsome
          cases hsome
        · exact Or.inr ⟨i, hit, hsome⟩
    · have hstep : detectStep lines k acc a =
          some ⟨a, lines.getD a [], lines.getD (a + 1) [], fr.keyword, fr.similarity,
            min (19/20 : ℚ) (fr.similarity + 1/10)⟩ := by
        simp only [detectStep]
        rw [hm]
      rw [hstep]
      exact ih _ (Or.inl rfl)

theorem detect_foldl_inv (lines : List (List Char)) (k : PrepKey) (l : List ℕ)
    (acc : Option Detection) (d : Detection)
    (h : l.foldl (detectStep lines k) acc = some d) :
    acc = some d ∨
    ∃ i fr, isFuzzyMatch (lines.getD i []) (TRAFFIC_KEYWORDS k) = some fr ∧
      d = ⟨i, lines.getD i [], lines.getD (i + 1) [], fr.keyword, fr.similarity,
        min (19/20 : ℚ) (fr.similarity + 1/10)⟩ := by
  induction l generalizing acc with
  | nil => exact Or.inl h
  | cons a t ih =>
    rw [List.foldl_cons] at h
    rcases ih _ h with hstep | hex
    · rcases hm : isFuzzyMatch (lines.getD a []) (TRAFFIC_KEYWORDS k) with _ | fr
      · have hacc : detectStep lines k acc a = acc := by
          simp only [detectStep]
          rw [hm]
        rw [hacc] at hstep
        exact Or.inl hstep
      · have hacc : detectStep lines k acc a =
            some ⟨a, lines.getD a [], lines.getD (a + 1) [], fr.keyword, fr.similarity,
              min (19/20 : ℚ) (fr.similarity + 1/10)⟩ := by
          simp only [detectStep]
          rw [hm]
        rw [hacc, Option.some.injEq] at hstep
        exact Or.inr ⟨a, fr, hm, hstep.symm⟩
    · exact Or.inr hex

/-- Counterexample to C8: the single input line `"מספר"` is (already
script-restricted and trimmed) exactly the sixth `reportNumber` keyword, yet
the derived detection confidence is 0.6, not 0.95 — the scan stops at the
earlier keyword `"מס'"`, which is within edit distance 2 of the line. -/
theorem exactKeyword_low_confidence :
    "מספר".toList ∈ TRAFFIC_KEYWORDS .reportNumber ∧
    trimJS ("מספר".toList.filter scriptRelevant) = "מספר".toList ∧
    (detectFieldTypes ["מספר".toList] .reportNumber).map Detection.confidence = some (3/5) ∧
    ¬ ((19 : ℚ)/20 ≤ 3/5) := by
  refine ⟨by decide, by decide, by decide, by decide⟩

/-- C8 as amended: a line that (after restriction to script-relevant
characters and trimming) equals one of a field's keywords always makes the
detector declare that field, and the derived detection confidence is exactly
0.95 whenever the keyword the scan returns is the cleaned line itself (the
scan returns the first matching keyword of the list, which may be an earlier,
merely-similar keyword with lower confidence). -/
theorem exactKeyword_detection (lines : List (List Char)) (i : ℕ) (k : PrepKey) (kw : List Char)
    (hi : i < lines.length) (hkw : kw ∈ TRAFFIC_KEYWORDS k)
    (hclean : trimJS ((lines.getD i []).filter scriptRelevant) = kw) :
    (detectFieldTypes lines k).isSome = true ∧
    ∀ d, detectFieldTypes lines k = some d →
      trimJS (d.line.filter scriptRelevant) = d.matchedKeyword →
      d.confidence = 19/20 := by
  constructor
  · apply detect_foldl_isSome
    refine Or.inr ⟨i, List.mem_range.mpr hi, ?_⟩
    unfold isFuzzyMatch
    rw [hclean]
    exact isFuzzyMatchGo_exact_mem kw _ hkw
  · intro d hd hdmk
    rcases detect_foldl_inv lines k _ none d hd with h | ⟨j, fr, hm, hdet⟩
    · cases h
    · subst hdet
      simp only at hdmk ⊢
      have hsim := isFuzzyMatchGo_sim_eq (trimJS ((lines.getD j []).filter scriptRelevant))
        (TRAFFIC_KEYWORDS k) fr hm
      rw [hdmk] at hsim
      rw [editDistance_self] at hsim
      simp only [Nat.cast_zero, zero_div, sub_zero] at hsim
      rw [hsim]
      norm_num

/-- Witness for the amended C8: the line `"קנס"` is the second `fineAmount`
keyword, no earlier keyword matches it, and the detector fires. -/
theorem exactKeyword_detection_witness :
    (detectFieldTypes ["קנס".toList] .fineAmount).isSome = true :=
  (exactKeyword_detection ["קנס".toList] 0 .fineAmount "קנס".toList (by decide) (by decide)
    (by decide)).1

/-! ### Detector confidences are bounded away from zero (supports the nonzero
hypothesis of the C3 theorem) -/

theorem detection_confidence_lb (lines : List (List Char)) (k : PrepKey) (d : Detection)
    (h : detectFieldTypes lines k = some d) : 1/10 ≤ d.confidence := by
  rcases detect_foldl_inv lines k _ none d h with h0 | ⟨j, fr, hm, hdet⟩
  · cases h0
  · subst hdet
    simp only
    have hsim := isFuzzyMatchGo_sim_eq (trimJS ((lines.getD j []).filter scriptRelevant))
      (TRAFFIC_KEYWORDS k) fr hm
    have hnn := similarity_nonneg (trimJS ((lines.getD j []).filter scriptRelevant)) fr.keyword
    rw [← hsim] at hnn
    apply le_min (by norm_num)
    linarith

/-- Every confidence the preprocessing pass hands to the merge step comes from
a detection, hence is at least 0.1 and in particular nonzero. -/
theorem extractedValues_confidence_pos (raw : List Char) (k : PrepKey) (ev : ExtractedVal)
    (h : (preprocessOCRText raw).extractedValues k = some ev) :
    1/10 ≤ ev.confidence ∧ ev.confidence ≠ 0 := by
  simp only [preprocessOCRText] at h
  rcases hd : detectFieldTypes ((splitOnNl (correctHebrewOCRErrors (normalizeHebrewText raw))).filter
      (fun line => 0 < (trimJS line).length)) k with _ | info
  · rw [hd] at h
    cases h
  · have h2 : (if extractValuePatterns (info.line ++ ' ' :: info.nextLine) k ≠ [] then
        some (⟨extractValuePatterns (info.line ++ ' ' :: info.nextLine) k, info.confidence,
          info.line, info.matchedKeyword⟩ : ExtractedVal)
      else none) = some ev := by
      rw [hd] at h
      exact h
    split at h2
    · rw [Option.some.injEq] at h2
      have hev : ev.confidence = info.confidence := by rw [← h2]
      have := detection_confidence_lb _ k info hd
      rw [hev]
      exact ⟨this, by intro h0; rw [h0] at this; norm_num at this⟩
    · cases h2

/-- Witness for C3 at a concrete field: model confidence 0.8, detector
confidence 0.6, OCR confidence 0.5. -/
theorem combineExtractionResults_formula_witness :
    (combineExtractionResults (⟨fun _ => JsVal.str "123456".toList, fun _ => 4/5, []⟩ : Validated)
      (fun f => if f = FieldKey.reportNumber then some ((3:ℚ)/5) else none) (1/2)).confidenceScores
        .reportNumber = ((4:ℚ)/5 * (7/10) + (3:ℚ)/5 * (3/10)) * (1/2) :=
  (combineExtractionResults_formula (⟨fun _ => JsVal.str "123456".toList, fun _ => 4/5, []⟩ : Validated)
    (fun f => if f = FieldKey.reportNumber then some ((3:ℚ)/5) else none) (1/2) .reportNumber (3/5)
    (by decide) (by decide) (by decide)).1

/-- Witness for C5 at a concrete merge: the model path missed `points`, the
deterministic path found `"6"` with confidence 0.8, and `reportNumber` is kept
untouched. -/
theorem mergeWatchlist_gapfill_witness :
    (mergeWatchlist (fun _ => JsVal.null) (fun _ => some (9/10))
      (fun f => if f = FieldKey.points then JsVal.str "6".toList else JsVal.undef)
      (fun f => if f = FieldKey.points then some ((4:ℚ)/5) else none)).1 .points =
        (fun f => if f = FieldKey.points then JsVal.str "6".toList else JsVal.undef) .points ∧
    (mergeWatchlist (fun _ => JsVal.null) (fun _ => some (9/10))
      (fun f => if f = FieldKey.points then JsVal.str "6".toList else JsVal.undef)
      (fun f => if f = FieldKey.points then some ((4:ℚ)/5) else none)).2 .points = some (4/5) ∧
    (mergeWatchlist (fun _ => JsVal.null) (fun _ => some (9/10))
      (fun f => if f = FieldKey.points then JsVal.str "6".toList else JsVal.undef)
      (fun f => if f = FieldKey.points then some ((4:ℚ)/5) else none)).1 .reportNumber = JsVal.null ∧
    (mergeWatchlist (fun _ => JsVal.null) (fun _ => some (9/10))
      (fun f => if f = FieldKey.points then JsVal.str "6".toList else JsVal.undef)
      (fun f => if f = FieldKey.points then some ((4:ℚ)/5) else none)).2 .reportNumber = some (9/10) :=
  mergeWatchlist_gapfill (fun _ => JsVal.null) (fun _ => some (9/10))
    (fun f => if f = FieldKey.points then JsVal.str "6".toList else JsVal.undef)
    (fun f => if f = FieldKey.points then some ((4:ℚ)/5) else none) .points .reportNumber (4/5)
    (by decide) (by decide) (by decide) (by decide) (by decide)

/-! ## Claims C4 and C9 — invariants of the text normalizer

The shared invariant: after whitespace collapsing, every whitespace character
of the working string is a single space, no two whitespace characters are
adjacent, and (after trimming) neither end is whitespace. The artifact
substitutions preserve all of this, except that removing `_`, backquote or
apostrophe can merge two spaces — the exact failure of idempotence. -/

/-- Every whitespace character of the list is a plain space. -/
def WsOnly (l : List Char) : Prop := ∀ c ∈ l, isWS c = true → c = ' '

/-- No two adjacent whitespace characters. -/
def NoAdjWS : List Char → Prop
  | a :: b :: t => ¬(isWS a = true ∧ isWS b = true) ∧ NoAdjWS (b :: t)
  | _ => True

/-- The first character, if any, is not whitespace. -/
def HeadOk : List Char → Prop
  | [] => True
  | c :: _ => isWS c = false

/-- The last character, if any, is not whitespace. -/
def LastOk : List Char → Prop
  | [] => True
  | [c] => isWS c = false
  | _ :: c :: t => LastOk (c :: t)

theorem NoAdjWS_tail (a : Char) (l : List Char) (h : NoAdjWS (a :: l)) : NoAdjWS l := by
  cases l with
  | nil => trivial
  | cons b t => exact h.2

theorem WsOnly_tail (a : Char) (l : List Char) (h : WsOnly (a :: l)) : WsOnly l :=
  fun c hc => h c (List.mem_cons_of_mem a hc)

theorem mem_squeezeSpaces (c : Char) : ∀ l : List Char, c ∈ squeezeSpaces l → c ∈ l
  | [], h => h
  | [a], h => h
  | a :: b :: t, h => by
    simp only [squeezeSpaces] at h
    split at h
    · exact List.mem_cons_of_mem a (mem_squeezeSpaces c (b :: t) h)
    · rcases List.mem_cons.mp h with rfl | h2
      · exact List.mem_cons_self _ _
      · exact List.mem_cons_of_mem a (mem_squeezeSpaces c (b :: t) h2)

theorem squeezeSpaces_head : ∀ (b : Char) (t : List Char),
    (squeezeSpaces (b :: t)).head? = some b
  | _, [] => rfl
  | b, c :: t => by
    simp only [squeezeSpaces]
    split
    · next hcond => rw [squeezeSpaces_head c t, hcond.2, hcond.1]
    · rfl

theorem noAdjWS_squeezeSpaces : ∀ l : List Char, WsOnly l → NoAdjWS (squeezeSpaces l)
  | [], _ => trivial
  | [a], _ => trivial
  | a :: b :: t, hP => by
    simp only [squeezeSpaces]
    split
    · exact noAdjWS_squeezeSpaces (b :: t) (WsOnly_tail a _ hP)
    · next hcond =>
      have hrec := noAdjWS_squeezeSpaces (b :: t) (WsOnly_tail a _ hP)
      have hx := squeezeSpaces_head b t
      rcases hsq : squeezeSpaces (b :: t) with _ | ⟨hb, rest⟩
      · trivial
      · rw [hsq] at hx hrec
        have hb' : hb = b := by injection hx with hx
        refine ⟨?_, hrec⟩
        rintro ⟨w1, w2⟩
        rw [hb'] at w2
        exact hcond ⟨hP a (List.mem_cons_self _ _) w1,
          hP b (List.mem_cons_of_mem a (List.mem_cons_self _ _)) w2⟩

theorem wsOnly_map_wsToSpace (l : List Char) : WsOnly (l.map wsToSpace) := by
  intro c hc hw
  obtain ⟨d, _, hd⟩ := List.mem_map.mp hc
  by_cases h : isWS d = true
  · rw [← hd, wsToSpace, if_pos h]
  · rw [← hd, wsToSpace, if_neg h] at hw ⊢
    exact absurd hw h

theorem WsOnly_collapseWS (l : List Char) : WsOnly (collapseWS l) :=
  fun c hc hw => wsOnly_map_wsToSpace l c (mem_squeezeSpaces c _ hc) hw

theorem NoAdjWS_collapseWS (l : List Char) : NoAdjWS (collapseWS l) :=
  noAdjWS_squeezeSpaces _ (wsOnly_map_wsToSpace l)

theorem squeezeSpaces_eq_self : ∀ l : List Char, WsOnly l → NoAdjWS l → squeezeSpaces l = l
  | [], _, _ => rfl
  | [a], _, _ => rfl
  | a :: b :: t, hP, hA => by
    simp only [squeezeSpaces]
    rw [if_neg, squeezeSpaces_eq_self (b :: t) (WsOnly_tail a _ hP) hA.2]
    rintro ⟨ha, hb⟩
    exact hA.1 ⟨by rw [ha]; decide, by rw [hb]; decide⟩

theorem collapseWS_eq_self (l : List Char) (hP : WsOnly l) (hA : NoAdjWS l) :
    collapseWS l = l := by
  have hmap : l.map wsToSpace = l := by
    have := List.map_congr_left (l := l) (f := wsToSpace) (g := id) ?_
    · rw [this, List.map_id]
    · intro c hc
      by_cases h : isWS c = true
      · rw [wsToSpace, if_pos h, id]
        exact (hP c hc h).symm
      · rw [wsToSpace, if_neg h, id]
  rw [collapseWS, hmap]
  exact squeezeSpaces_eq_self l hP hA

theorem mem_dropWSEnd (c : Char) : ∀ l : List Char, c ∈ dropWSEnd l → c ∈ l
  | [], h => h
  | a :: r, h => by
    simp only [dropWSEnd] at h
    split at h
    · cases h
    · rcases List.mem_cons.mp h with rfl | h2
      · exact List.mem_cons_self _ _
      · exact List.mem_cons_of_mem a (mem_dropWSEnd c r h2)

theorem dropWSEnd_cases (c : Char) (r : List Char) :
    dropWSEnd (c :: r) = [] ∨ dropWSEnd (c :: r) = c :: dropWSEnd r := by
  simp only [dropWSEnd]
  split
  · exact Or.inl rfl
  · exact Or.inr rfl

theorem mem_trimJS (c : Char) (l : List Char) (h : c ∈ trimJS l) : c ∈ l :=
  (List.dropWhile_sublist isWS).subset (mem_dropWSEnd c _ h)

theorem WsOnly_trimJS (l : List Char) (h : WsOnly l) : WsOnly (trimJS l) :=
  fun c hc hw => h c (mem_trimJS c l hc) hw

theorem NoAdjWS_dropWhileWS (l : List Char) (h : NoAdjWS l) : NoAdjWS (l.dropWhile isWS) := by
  induction l with
  | nil => trivial
  | cons a t ih =>
    rw [List.dropWhile_cons]
    split
    · exact ih (NoAdjWS_tail a t h)
    · exact h

theorem NoAdjWS_dropWSEnd : ∀ l : List Char, NoAdjWS l → NoAdjWS (dropWSEnd l)
  | [], _ => trivial
  | [c], _ => by
    rcases dropWSEnd_cases c [] with h | h <;> rw [h] <;> trivial
  | c :: d :: t, h => by
    rcases dropWSEnd_cases c (d :: t) with h1 | h1 <;> rw [h1]
    · trivial
    · rcases dropWSEnd_cases d t with h2 | h2 <;> rw [h2]
      · trivial
      · have hrec := NoAdjWS_dropWSEnd (d :: t) h.2
        rw [h2] at hrec
        exact ⟨h.1, hrec⟩

theorem NoAdjWS_trimJS (l : List Char) (h : NoAdjWS l) : NoAdjWS (trimJS l) :=
  NoAdjWS_dropWSEnd _ (NoAdjWS_dropWhileWS l h)

theorem HeadOk_dropWhileWS (l : List Char) : HeadOk (l.dropWhile isWS) := by
  induction l with
  | nil => trivial
  | cons a t ih =>
    rw [List.dropWhile_cons]
    split
    · exact ih
    · next hcond =>
      show isWS a = false
      simpa using hcond

theorem HeadOk_dropWSEnd (l : List Char) (h : HeadOk l) : HeadOk (dropWSEnd l) := by
  cases l with
  | nil => trivial
  | cons c r =>
    rcases dropWSEnd_cases c r with h1 | h1 <;> rw [h1]
    · trivial
    · exact h

theorem HeadOk_trimJS (l : List Char) : HeadOk (trimJS l) :=
  HeadOk_dropWSEnd _ (HeadOk_dropWhileWS l)

theorem LastOk_dropWSEnd : ∀ l : List Char, LastOk (dropWSEnd l)
  | [] => trivial
  | c :: r => by
    simp only [dropWSEnd]
    split
    · trivial
    · next hcond =>
      rcases hr : dropWSEnd r with _ | ⟨d, t⟩
      · show isWS c = false
        have hw : ¬ isWS c = true := fun hw => hcond ⟨hr, hw⟩
        simpa using hw
      · have hrec := LastOk_dropWSEnd r
        rw [hr] at hrec
        exact hrec

theorem LastOk_trimJS (l : List Char) : LastOk (trimJS l) :=
  LastOk_dropWSEnd _

theorem dropWhileWS_eq_self (l : List Char) (h : HeadOk l) : l.dropWhile isWS = l := by
  cases l with
  | nil => rfl
  | cons c r =>
    rw [List.dropWhile_cons, if_neg]
    rw [h]
    simp

theorem dropWSEnd_eq_self : ∀ l : List Char, LastOk l → dropWSEnd l = l
  | [], _ => rfl
  | [c], h => by
    simp only [dropWSEnd]
    rw [if_neg]
    rintro ⟨_, hw⟩
    rw [h] at hw
    cases hw
  | c :: d :: t, h => by
    show (if dropWSEnd (d :: t) = [] ∧ isWS c = true then [] else c :: dropWSEnd (d :: t)) =
      c :: d :: t
    rw [dropWSEnd_eq_self (d :: t) h, if_neg]
    rintro ⟨habs, _⟩
    cases habs

theorem trimJS_eq_self (l : List Char) (hh : HeadOk l) (hl : LastOk l) : trimJS l = l := by
  rw [trimJS, dropWhileWS_eq_self l hh, dropWSEnd_eq_self l hl]

theorem isWS_barToVav (c : Char) : isWS (barToVav c) = isWS c := by
  rw [barToVav]
  split
  · next h => rw [h]; decide
  · rfl

theorem barToVav_ne_bar (c : Char) : barToVav c ≠ '|' := by
  rw [barToVav]
  split
  · decide
  · assumption

theorem WsOnly_map_barToVav (l : List Char) (h : WsOnly l) : WsOnly (l.map barToVav) := by
  intro c hc hw
  obtain ⟨d, hd, hdc⟩ := List.mem_map.mp hc
  rw [← hdc] at hw ⊢
  rw [isWS_barToVav] at hw
  rw [h d hd hw]
  rfl

theorem NoAdjWS_map_barToVav : ∀ l : List Char, NoAdjWS l → NoAdjWS (l.map barToVav)
  | [], _ => trivial
  | [_], _ => trivial
  | a :: b :: t, h => by
    refine ⟨?_, NoAdjWS_map_barToVav (b :: t) h.2⟩
    rintro ⟨w1, w2⟩
    rw [isWS_barToVav] at w1 w2
    exact h.1 ⟨w1, w2⟩

theorem HeadOk_map_barToVav (l : List Char) (h : HeadOk l) : HeadOk (l.map barToVav) := by
  cases l with
  | nil => trivial
  | cons c r =>
    show isWS (barToVav c) = false
    rw [isWS_barToVav]
    exact h

theorem LastOk_map_barToVav : ∀ l : List Char, LastOk l → LastOk (l.map barToVav)
  | [], _ => trivial
  | [c], h => by
    show isWS (barToVav c) = false
    rw [isWS_barToVav]
    exact h
  | _ :: c :: t, h => LastOk_map_barToVav (c :: t) h

theorem no_nl_collapseWS (l : List Char) : '\n' ∉ collapseWS l := by
  intro h
  have := WsOnly_collapseWS l '\n' h (by decide)
  cases this

theorem splitOnNl_no_nl (l : List Char) (h : '\n' ∉ l) : splitOnNl l = [l] := by
  induction l with
  | nil => rfl
  | cons c r ih =>
    have hc : ¬ c = '\n' := fun hc => h (hc ▸ List.mem_cons_self _ _)
    have hr : '\n' ∉ r := fun hr => h (List.mem_cons_of_mem c hr)
    simp only [splitOnNl, if_neg hc, ih hr]

theorem intercalate_single (sep l : List Char) : List.intercalate sep [l] = l := by
  simp [List.intercalate, List.intersperse]

/-- `normalizeHebrewText` in closed form: since whitespace collapsing removes
every newline, the split–trim–join stage is a single trim. -/
theorem normalize_eq_chain (x : List Char) :
    normalizeHebrewText x =
      trimJS ((((trimJS (collapseWS (x.filter (fun c => !isStrippedCtrl c)))).map
        barToVav).filter (fun c => !(c = backquoteChar || c = apostChar))).filter
          (fun c => !(c = '_'))) := by
  rcases x with _ | ⟨c0, r0⟩
  · rfl
  · simp only [normalizeHebrewText]
    rw [if_neg (by simp)]
    rw [splitOnNl_no_nl _ (no_nl_collapseWS _)]
    simp only [List.map_cons, List.map_nil]
    rcases htr : trimJS (collapseWS ((c0 :: r0).filter (fun c => !isStrippedCtrl c)))
        with _ | ⟨d, s⟩
    · rfl
    · have hkeep : (decide ((d :: s).length > 0)) = true := by simp
      simp only [List.filter_cons, hkeep, if_true, List.filter_nil]
      rw [intercalate_single]

/-- For artifact-free input the two artifact filters and the final trim are the
identity, so normalization is collapse, trim, and the bar substitution. -/
theorem chain_simplification (x : List Char)
    (hx : ∀ c ∈ x, ¬(c = '_' ∨ c = backquoteChar ∨ c = apostChar)) :
    normalizeHebrewText x =
      (trimJS (collapseWS (x.filter (fun c => !isStrippedCtrl c)))).map barToVav := by
  have hmem : ∀ c ∈ (trimJS (collapseWS (x.filter (fun c => !isStrippedCtrl c)))).map barToVav,
      ¬(c = '_' ∨ c = backquoteChar ∨ c = apostChar) := by
    intro c hc
    obtain ⟨d, hd, hdc⟩ := List.mem_map.mp hc
    have hd2 : d ∈ collapseWS (x.filter (fun c => !isStrippedCtrl c)) := mem_trimJS d _ hd
    have hd3 := mem_squeezeSpaces d _ hd2
    obtain ⟨e, he, hed⟩ := List.mem_map.mp hd3
    have he2 : e ∈ x := List.mem_of_mem_filter he
    have hxe := hx e he2
    rw [← hdc, ← hed]
    rw [barToVav, wsToSpace]
    split
    · decide
    · split
      · decide
      · exact hxe
  have h1 : ((trimJS (collapseWS (x.filter (fun c => !isStrippedCtrl c)))).map barToVav).filter
      (fun c => !(c = backquoteChar || c = apostChar)) =
      (trimJS (collapseWS (x.filter (fun c => !isStrippedCtrl c)))).map barToVav := by
    rw [List.filter_eq_self]
    intro a ha
    have := hmem a ha
    simp only [Bool.not_eq_true', Bool.or_eq_false_iff, decide_eq_false_iff_not]
    exact ⟨fun h => this (Or.inr (Or.inl h)), fun h => this (Or.inr (Or.inr h))⟩
  have h2 : (((trimJS (collapseWS (x.filter (fun c => !isStrippedCtrl c)))).map barToVav).filter
      (fun c => !(c = backquoteChar || c = apostChar))).filter (fun c => !(c = '_')) =
      (trimJS (collapseWS (x.filter (fun c => !isStrippedCtrl c)))).map barToVav := by
    rw [h1, List.filter_eq_self]
    intro a ha
    have := hmem a ha
    simp only [Bool.not_eq_true', decide_eq_false_iff_not]
    exact fun h => this (Or.inl h)
  rw [normalize_eq_chain, h2]
  exact trimJS_eq_self _
    (HeadOk_map_barToVav _ (HeadOk_trimJS _))
    (LastOk_map_barToVav _ (LastOk_trimJS _))

/-- The normalized form of an artifact-free input satisfies every invariant
the fixpoint lemma needs. -/
theorem normalized_invariants (x : List Char)
    (hx : ∀ c ∈ x, ¬(c = '_' ∨ c = backquoteChar ∨ c = apostChar)) :
    WsOnly (normalizeHebrewText x) ∧ NoAdjWS (normalizeHebrewText x) ∧
    HeadOk (normalizeHebrewText x) ∧ LastOk (normalizeHebrewText x) ∧
    (∀ c ∈ normalizeHebrewText x, isStrippedCtrl c = false) ∧
    (∀ c ∈ normalizeHebrewText x, c ≠ '|') ∧
    (∀ c ∈ normalizeHebrewText x, ¬(c = '_' ∨ c = backquoteChar ∨ c = apostChar)) := by
  rw [chain_simplification x hx]
  refine ⟨WsOnly_map_barToVav _ (WsOnly_trimJS _ (WsOnly_collapseWS _)),
    NoAdjWS_map_barToVav _ (NoAdjWS_trimJS _ (NoAdjWS_collapseWS _)),
    HeadOk_map_barToVav _ (HeadOk_trimJS _),
    LastOk_map_barToVav _ (LastOk_trimJS _), ?_, ?_, ?_⟩
  · intro c hc
    obtain ⟨d, hd, hdc⟩ := List.mem_map.mp hc
    have hd3 := mem_squeezeSpaces d _ (mem_trimJS d _ hd)
    obtain ⟨e, he, hed⟩ := List.mem_map.mp hd3
    have he2 : (!isStrippedCtrl e) = true := (List.mem_filter.mp he).2
    rw [← hdc, ← hed, barToVav, wsToSpace]
    split
    · decide
    · split
      · decide
      · simpa using he2
  · intro c hc
    obtain ⟨d, _, hdc⟩ := List.mem_map.mp hc
    rw [← hdc]
    exact barToVav_ne_bar d
  · intro c hc
    obtain ⟨d, hd, hdc⟩ := List.mem_map.mp hc
    have hd3 := mem_squeezeSpaces d _ (mem_trimJS d _ hd)
    obtain ⟨e, he, hed⟩ := List.mem_map.mp hd3
    have hxe := hx e (List.mem_of_mem_filter he)
    rw [← hdc, ← hed, barToVav, wsToSpace]
    split
    · decide
    · split
      · decide
      · exact hxe

/-- Any string satisfying the post-normalization invariants is a fixpoint of
the normalizer. -/
theorem normalize_fixpoint (y : List Char)
    (hws : WsOnly y) (hadj : NoAdjWS y) (hh : HeadOk y) (hl : LastOk y)
    (hctrl : ∀ c ∈ y, isStrippedCtrl c = false)
    (hbar : ∀ c ∈ y, c ≠ '|')
    (hart : ∀ c ∈ y, ¬(c = '_' ∨ c = backquoteChar ∨ c = apostChar)) :
    normalizeHebrewText y = y := by
  rw [normalize_eq_chain]
  have h2 : y.filter (fun c => !isStrippedCtrl c) = y := by
    rw [List.filter_eq_self]
    intro a ha
    simp [hctrl a ha]
  rw [h2, collapseWS_eq_self y hws hadj, trimJS_eq_self y hh hl]
  have h3 : y.map barToVav = y := by
    have := List.map_congr_left (l := y) (f := barToVav) (g := id) ?_
    · rw [this, List.map_id]
    · intro c hc
      rw [barToVav, if_neg (hbar c hc), id]
  rw [h3]
  have h4 : y.filter (fun c => !(c = backquoteChar || c = apostChar)) = y := by
    rw [List.filter_eq_self]
    intro a ha
    have := hart a ha
    simp only [Bool.not_eq_true', Bool.or_eq_false_iff, decide_eq_false_iff_not]
    exact ⟨fun h => this (Or.inr (Or.inl h)), fun h => this (Or.inr (Or.inr h))⟩
  rw [h4]
  have h5 : y.filter (fun c => !(c = '_')) = y := by
    rw [List.filter_eq_self]
    intro a ha
    have := hart a ha
    simp only [Bool.not_eq_true', decide_eq_false_iff_not]
    exact fun h => this (Or.inl h)
  rw [h5]
  exact trimJS_eq_self y hh hl

/-- Counterexample to C4: the normalizer is not idempotent. On `"a _ b"` the
underscore is removed after whitespace collapsing, leaving the double space
`"a  b"`, which a second normalization collapses to `"a b"`. -/
theorem normalize_not_idempotent :
    normalizeHebrewText (normalizeHebrewText "a _ b".toList) ≠
      normalizeHebrewText "a _ b".toList := by decide

/-- C4 as amended: the normalizer is idempotent on every input containing none
of the removed artifact characters `_`, backquote, apostrophe (whose removal
after whitespace collapsing is what can create fresh double spaces), and empty
input yields empty output. -/
theorem normalize_idempotent_artifact_free (x : List Char)
    (hx : x.all (fun c => !(c = '_' || c = backquoteChar || c = apostChar)) = true) :
    normalizeHebrewText (normalizeHebrewText x) = normalizeHebrewText x ∧
    normalizeHebrewText [] = [] := by
  refine ⟨?_, rfl⟩
  have hx' : ∀ c ∈ x, ¬(c = '_' ∨ c = backquoteChar ∨ c = apostChar) := by
    intro c hc
    have := List.all_eq_true.mp hx c hc
    simp only [Bool.not_eq_true', Bool.or_eq_false_iff, decide_eq_false_iff_not] at this
    rintro (h | h | h)
    · exact this.1.1 h
    · exact this.1.2 h
    · exact this.2 h
  obtain ⟨h1, h2, h3, h4, h5, h6, h7⟩ := normalized_invariants x hx'
  exact normalize_fixpoint _ h1 h2 h3 h4 h5 h6 h7

/-- Witness for the amended C4 on a concrete artifact-free noisy input. -/
theorem normalize_idempotent_witness :
    normalizeHebrewText (normalizeHebrewText " ab \n\n cd|e\t".toList) =
      normalizeHebrewText " ab \n\n cd|e\t".toList :=
  (normalize_idempotent_artifact_free " ab \n\n cd|e\t".toList (by decide)).1

/-! ## Claim C9 — the normalizer output has no newline; at most one line -/

/-- C9: normalized text never contains a newline (whitespace collapsing folds
every newline into a space before the line split), so the line list consumed
by the detector and the pattern extractor has at most one element. -/
theorem normalize_no_newline (x : List Char) :
    (∀ c ∈ normalizeHebrewText x, c ≠ '\n') ∧ (preprocessOCRText x).lines.length ≤ 1 := by
  have h1 : ∀ c ∈ normalizeHebrewText x, c ≠ '\n' := by
    intro c hc
    rw [normalize_eq_chain] at hc
    have hc2 := List.mem_of_mem_filter (List.mem_of_mem_filter (mem_trimJS c _ hc))
    have hP : WsOnly ((trimJS (collapseWS (x.filter (fun c => !isStrippedCtrl c)))).map
        barToVav) := WsOnly_map_barToVav _ (WsOnly_trimJS _ (WsOnly_collapseWS _))
    intro hnl
    have := hP c hc2 (by rw [hnl]; decide)
    rw [hnl] at this
    cases this
  refine ⟨h1, ?_⟩
  have hcorr : correctHebrewOCRErrors (normalizeHebrewText x) = normalizeHebrewText x :=
    correctHebrewOCRErrors_eq_self (normalizeHebrewText x)
  have hnl : '\n' ∉ normalizeHebrewText x := fun h => h1 '\n' h rfl
  simp only [preprocessOCRText, hcorr, splitOnNl_no_nl _ hnl]
  exact le_trans (List.length_filter_le _ _) (by simp)

/-- Witness for C9 at a concrete two-line input. -/
theorem normalize_no_newline_witness :
    (preprocessOCRText ('a' :: '\n' :: ['b'])).lines.length ≤ 1 :=
  (normalize_no_newline ('a' :: '\n' :: ['b'])).2

end SmartTraffic
